import Mathlib

/-!
Verification of the generic graph library (adjacency list storage, depth-first
search, topological sort) against its natural-language specification.

The embedding follows the C++ sources:
  src/graph/adjacency_list.hpp       - AdjacencyList storage (Directed / Bidirectional)
  src/graph/depth_first_search.hpp   - dfs / dfsVisit and the visitor protocol
  src/graph/topological_sort.hpp     - TopoVisitor / topoSort

Machine integers (std::size_t) are modelled as Nat: the library only ever
produces indices by counting elements of in-memory vectors, so no arithmetic
wrap-around is reachable.  Unchecked vector indexing (undefined behaviour in
C++ when out of range) is modelled totally with Option lookups plus a default;
every theorem restricts to graphs and descriptors for which the C++ code is
within bounds.  The unbounded recursion of dfsVisit is modelled with explicit
fuel (the call either completes or returns none); lemmas show the fuel chosen
by the embedding of dfs always suffices.
-/

namespace graph

/-- DFSColour from depth_first_search.hpp: `enum struct DFSColour { White, Grey, Black }`.
White = Unvisited, Grey = Active (on the recursion stack), Black = Done. -/
inductive DFSColour where
  | White
  | Grey
  | Black
deriving DecidableEq, Repr

/-- EdgeDescriptor from adjacency_list.hpp: cached source, cached target and the
stable index into the global stored-edge list.  (The C++ operator== compares only
`storedEdgeIdx`; on descriptors produced by the library the cached fields are
determined by the index, so structural equality agrees with it.) -/
structure EdgeDescriptor where
  src : Nat
  tar : Nat
  storedEdgeIdx : Nat
deriving DecidableEq, Repr

/-- The `vertices(g)` iterator: `boost::counting_iterator<VertexDescriptor>`, a
counter that yields its value when dereferenced.  It is a distinct C++ type from
VertexDescriptor (= std::size_t); `dfs` passes this iterator object itself - not
the dereferenced descriptor - to `initVertex` and `startVertex`, so the embedding
keeps the two types apart. -/
structure CountingIterator where
  value : Nat
deriving DecidableEq, Repr

/-- One visitor-callback invocation, with the argument the C++ code actually
passes (the graph argument, passed unchanged to every callback, is omitted).
`initVertex`/`startVertex` receive the vertex-range iterator (see
`CountingIterator`); the remaining vertex callbacks receive a VertexDescriptor. -/
inductive Event where
  | initVertex (v : CountingIterator)
  | startVertex (v : CountingIterator)
  | discoverVertex (v : Nat)
  | finishVertex (v : Nat)
  | examineEdge (e : EdgeDescriptor)
  | treeEdge (e : EdgeDescriptor)
  | backEdge (e : EdgeDescriptor)
  | forwardOrCrossEdge (e : EdgeDescriptor)
  | finishEdge (e : EdgeDescriptor)
deriving DecidableEq, Repr

/-- A DFS visitor over observer state σ.  The C++ visitor is an object whose
callbacks mutate state reachable from it; since the traversal itself never reads
the visitor's state, a visitor is embedded as one state-update function per
callback.  (C++ passes the visitor by value into every recursive call, so only
state behind a pointer - such as the container of a back_insert_iterator -
accumulates across calls; that shared state is exactly the σ threaded here.) -/
structure Visitor (σ : Type) where
  initVertex : CountingIterator → σ → σ
  startVertex : CountingIterator → σ → σ
  discoverVertex : Nat → σ → σ
  finishVertex : Nat → σ → σ
  examineEdge : EdgeDescriptor → σ → σ
  treeEdge : EdgeDescriptor → σ → σ
  backEdge : EdgeDescriptor → σ → σ
  forwardOrCrossEdge : EdgeDescriptor → σ → σ
  finishEdge : EdgeDescriptor → σ → σ

/-- DFSNullVisitor from depth_first_search.hpp: every callback does nothing. -/
def DFSNullVisitor (σ : Type) : Visitor σ where
  initVertex := fun _ s => s
  startVertex := fun _ s => s
  discoverVertex := fun _ s => s
  finishVertex := fun _ s => s
  examineEdge := fun _ s => s
  treeEdge := fun _ s => s
  backEdge := fun _ s => s
  forwardOrCrossEdge := fun _ s => s
  finishEdge := fun _ s => s

/-- The canonical observer: records every callback invocation, in order. -/
def traceVisitor : Visitor (List Event) where
  initVertex := fun v t => t ++ [Event.initVertex v]
  startVertex := fun v t => t ++ [Event.startVertex v]
  discoverVertex := fun v t => t ++ [Event.discoverVertex v]
  finishVertex := fun v t => t ++ [Event.finishVertex v]
  examineEdge := fun e t => t ++ [Event.examineEdge e]
  treeEdge := fun e t => t ++ [Event.treeEdge e]
  backEdge := fun e t => t ++ [Event.backEdge e]
  forwardOrCrossEdge := fun e t => t ++ [Event.forwardOrCrossEdge e]
  finishEdge := fun e t => t ++ [Event.finishEdge e]

/-- TopoVisitor from topological_sort.hpp: derived from DFSNullVisitor, overriding
only finishVertex, which writes the vertex through the output iterator
(`*iter = v`).  With the back_insert_iterator the driver uses, that write appends
to the output container, shared by all copies of the visitor. -/
def TopoVisitor : Visitor (List Nat) :=
  { DFSNullVisitor (List Nat) with finishVertex := fun v out => out ++ [v] }

/-- Replay one recorded callback against a visitor. -/
def applyEvent (V : Visitor σ) (s : σ) (ev : Event) : σ :=
  match ev with
  | Event.initVertex v => V.initVertex v s
  | Event.startVertex v => V.startVertex v s
  | Event.discoverVertex v => V.discoverVertex v s
  | Event.finishVertex v => V.finishVertex v s
  | Event.examineEdge e => V.examineEdge e s
  | Event.treeEdge e => V.treeEdge e s
  | Event.backEdge e => V.backEdge e s
  | Event.forwardOrCrossEdge e => V.forwardOrCrossEdge e s
  | Event.finishEdge e => V.finishEdge e s

/-- Replay a recorded callback sequence against a visitor. -/
def foldEvents (V : Visitor σ) (s : σ) (t : List Event) : σ :=
  t.foldl (applyEvent V) s

/-- The finish-order sequence of a callback trace: the arguments of the
finishVertex events, in order.  The output TopoVisitor accumulates is exactly
this sequence. -/
def finishSeq (t : List Event) : List Nat :=
  t.filterMap (fun ev => match ev with
    | Event.finishVertex v => some v
    | _ => none)

/-- The interface dfs needs from a graph, as in traits.hpp / the free functions
`numVertices` and `outEdges` that depth_first_search.hpp resolves by argument-
dependent lookup: a vertex count (vertices are the descriptors 0..n-1) and the
out-edge sequence of each vertex. -/
class Traits (Graph : Type) where
  numVertices : Graph → Nat
  outEdges : Nat → Graph → List EdgeDescriptor

export Traits (numVertices outEdges)

/-- Reading `colour[v]`: the colour vector entry, defaulting (never reached on
in-range indices) to White. -/
def colAt (cs : List DFSColour) (v : Nat) : DFSColour :=
  cs[v]?.getD DFSColour.White

/-- The for-loop over the out-edge range inside dfsVisit
(depth_first_search.hpp lines 58-69).  The recursive self-call of dfsVisit is
passed in as `visit`; for each edge: examineEdge, then classify by the colour of
the target (White: treeEdge and recurse; Grey: backEdge; otherwise
forwardOrCrossEdge), then finishEdge. -/
def dfsEdges (visit : Nat → List DFSColour → σ → Option (List DFSColour × σ))
    (V : Visitor σ) :
    List EdgeDescriptor → List DFSColour → σ → Option (List DFSColour × σ)
  | [], colour, s => some (colour, s)
  | e :: es, colour, s =>
    let s1 := V.examineEdge e s
    if colAt colour e.tar = DFSColour.White then
      let s2 := V.treeEdge e s1
      match visit e.tar colour s2 with
      | none => none
      | some (colour3, s3) => dfsEdges visit V es colour3 (V.finishEdge e s3)
    else if colAt colour e.tar = DFSColour.Grey then
      dfsEdges visit V es colour (V.finishEdge e (V.backEdge e s1))
    else
      dfsEdges visit V es colour (V.finishEdge e (V.forwardOrCrossEdge e s1))

/-- dfsVisit from depth_first_search.hpp: discoverVertex, mark Grey, process the
out-edge list (recursing into White targets), mark Black, finishVertex.  The C++
recursion has no termination argument of its own; `fuel` bounds the recursion
depth, and `none` marks exhaustion (shown unreachable for the fuel dfs supplies). -/
def dfsVisit [Traits Graph] (g : Graph) (V : Visitor σ) :
    Nat → Nat → List DFSColour → σ → Option (List DFSColour × σ)
  | 0, _, _, _ => none
  | fuel + 1, u, colour, s =>
    let s1 := V.discoverVertex u s
    let colour1 := colour.set u DFSColour.Grey
    match dfsEdges (dfsVisit g V fuel) V (outEdges u g) colour1 s1 with
    | none => none
    | some (colour2, s2) => some (colour2.set u DFSColour.Black, V.finishVertex u s2)

/-- The second loop of dfs (depth_first_search.hpp lines 90-95): scan the
vertices in ascending descriptor order; each still-White vertex gets startVertex
(with the loop iterator as argument, as in the source) and a dfsVisit call.
The fuel handed to dfsVisit is numVertices + 1, which the lemmas show suffices. -/
def dfsOuter [Traits Graph] (g : Graph) (V : Visitor σ) :
    List Nat → List DFSColour → σ → Option (List DFSColour × σ)
  | [], colour, s => some (colour, s)
  | v :: vs, colour, s =>
    if colAt colour v = DFSColour.White then
      match dfsVisit g V (numVertices g + 1) v colour (V.startVertex ⟨v⟩ s) with
      | none => none
      | some (colour1, s1) => dfsOuter g V vs colour1 s1
    else
      dfsOuter g V vs colour s

/-- dfs from depth_first_search.hpp: build the colour vector (n entries, all
White: `std::vector<DFSColour> colour_vec(n)` value-initialises to White and the
first loop re-writes White), fire initVertex for each vertex-range iterator in
ascending order, then run the seeding loop. -/
def dfs [Traits Graph] (g : Graph) (V : Visitor σ) (s : σ) : Option σ :=
  let n := numVertices g
  let s1 := (List.range n).foldl (fun s i => V.initVertex ⟨i⟩ s) s
  Option.map Prod.snd (dfsOuter g V (List.range n) (List.replicate n DFSColour.White) s1)

/-- topoSort from topological_sort.hpp: run dfs with a TopoVisitor writing
through the caller's output iterator; `oIter` is the sequence already written
behind a back_insert_iterator (the driver passes an empty vector). -/
def topoSort [Traits Graph] (g : Graph) (oIter : List Nat) : Option (List Nat) :=
  dfs g TopoVisitor oIter

/-- Modelled from the spec: properties.hpp is not under src/; per the spec it
provides only the "no payload" marker type `NoProp` used to switch payload
storage off. -/
inductive NoProp where
  | mk
deriving DecidableEq, Repr

instance : Inhabited NoProp := ⟨NoProp.mk⟩

/-- Modelled from the spec: tags.hpp is not under src/; per the spec it provides
the two directedness category tags, Directed and Bidirectional, used only for
compile-time selection.  They are embedded as the two values of one type, used
as a type index below. -/
inductive DirectedCategory where
  | Directed
  | Bidirectional
deriving DecidableEq, Repr

/-- StoredEdge from adjacency_list.hpp (StoredEdgeNoProp / StoredEdgeProp merged:
the NoProp shape is the EProp := NoProp instance; dropping the payload member is
a memory-layout optimisation with no observable content): cached source and
target vertex numbers plus the payload. -/
structure StoredEdge (EProp : Type) where
  src : Nat
  tar : Nat
  eProp : EProp
deriving DecidableEq, Repr

/-- StoredVertexSimple / StoredVertexSimpleProp from adjacency_list.hpp (merged
as for StoredEdge): out-edge reference list; each reference is the index of the
edge in the global stored-edge list. -/
structure StoredVertexOut (VProp : Type) where
  eOut : List Nat
  vProp : VProp
deriving DecidableEq, Repr

/-- StoredVertexComplex / StoredVertexComplexProp from adjacency_list.hpp:
out-edge and in-edge reference lists (the in-edge list exists only in this
bidirectional vertex shape). -/
structure StoredVertexInOut (VProp : Type) where
  eOut : List Nat
  eIn : List Nat
  vProp : VProp
deriving DecidableEq, Repr

/-- The std::conditional chain selecting the stored-vertex shape from the
directedness category (adjacency_list.hpp lines 91-94): Directed vertices carry
no in-edge list. -/
abbrev StoredVertexType : DirectedCategory → Type → Type
  | DirectedCategory.Directed, VProp => StoredVertexOut VProp
  | DirectedCategory.Bidirectional, VProp => StoredVertexInOut VProp

/-- The out-edge reference list of a stored vertex of either shape. -/
def vertexEOut : {cat : DirectedCategory} → {VProp : Type} →
    StoredVertexType cat VProp → List Nat
  | DirectedCategory.Directed, _, sv => sv.eOut
  | DirectedCategory.Bidirectional, _, sv => sv.eOut

/-- The payload of a stored vertex of either shape. -/
def vertexVProp : {cat : DirectedCategory} → {VProp : Type} →
    StoredVertexType cat VProp → VProp
  | DirectedCategory.Directed, _, sv => sv.vProp
  | DirectedCategory.Bidirectional, _, sv => sv.vProp

/-- A default-constructed stored vertex (`StoredVertex()`): empty adjacency,
default payload. -/
def defaultStoredVertex : (cat : DirectedCategory) → (VProp : Type) →
    [Inhabited VProp] → StoredVertexType cat VProp
  | DirectedCategory.Directed, _, _ => ⟨[], default⟩
  | DirectedCategory.Bidirectional, _, _ => ⟨[], [], default⟩

/-- A stored vertex constructed from a payload (`StoredVertex(vp)`). -/
def storedVertexOfProp : {cat : DirectedCategory} → {VProp : Type} →
    VProp → StoredVertexType cat VProp
  | DirectedCategory.Directed, _, vp => ⟨[], vp⟩
  | DirectedCategory.Bidirectional, _, vp => ⟨[], [], vp⟩

/-- Append an out-edge reference to a stored vertex (`eOut.push_back`). -/
def pushEOut : {cat : DirectedCategory} → {VProp : Type} →
    Nat → StoredVertexType cat VProp → StoredVertexType cat VProp
  | DirectedCategory.Directed, _, idx, sv => { sv with eOut := sv.eOut ++ [idx] }
  | DirectedCategory.Bidirectional, _, idx, sv => { sv with eOut := sv.eOut ++ [idx] }

/-- Append an in-edge reference to a bidirectional stored vertex
(`eIn.push_back`; the Directed shape has no such member). -/
def pushEIn {VProp : Type} (idx : Nat)
    (sv : StoredVertexType DirectedCategory.Bidirectional VProp) :
    StoredVertexType DirectedCategory.Bidirectional VProp :=
  { sv with eIn := sv.eIn ++ [idx] }

/-- In-place update of one vector element (`g.vList[i]` mutation). -/
def modifyAt {α : Type} : List α → Nat → (α → α) → List α
  | [], _, _ => []
  | a :: l, 0, f => f a :: l
  | a :: l, n + 1, f => a :: modifyAt l n f

/-- AdjacencyList from adjacency_list.hpp: the vertex vector (shape selected by
the category) and the global stored-edge vector. -/
structure AdjacencyList (cat : DirectedCategory) (VProp EProp : Type) where
  vList : List (StoredVertexType cat VProp)
  eList : List (StoredEdge EProp)

/-- The default-constructed AdjacencyList: no vertices, no edges. -/
def emptyGraph (cat : DirectedCategory) (VProp EProp : Type) :
    AdjacencyList cat VProp EProp :=
  ⟨[], []⟩

namespace AdjacencyList

variable {cat : DirectedCategory} {VProp EProp : Type}

/-- numVertices free function: size of the vertex vector. -/
def numVertices (g : AdjacencyList cat VProp EProp) : Nat :=
  g.vList.length

/-- numEdges free function: size of the global stored-edge vector. -/
def numEdges (g : AdjacencyList cat VProp EProp) : Nat :=
  g.eList.length

/-- vertices free function / VertexRange: the counting sequence 0..n-1. -/
def vertices (g : AdjacencyList cat VProp EProp) : List Nat :=
  List.range (numVertices g)

/-- EdgeRange::iterator::dereference: build the descriptor of the stored edge at
a position in the global store from its cached endpoints and that position. -/
def derefEdgeRef (g : AdjacencyList cat VProp EProp) (idx : Nat) : EdgeDescriptor :=
  match g.eList[idx]? with
  | some e => ⟨e.src, e.tar, idx⟩
  | none => ⟨0, 0, idx⟩

/-- edges free function / EdgeRange: every position of the global store in
creation order, dereferenced to its EdgeDescriptor. -/
def edges (g : AdjacencyList cat VProp EProp) : List EdgeDescriptor :=
  (List.range (numEdges g)).map (derefEdgeRef g)

/-- source free function. -/
def source (e : EdgeDescriptor) (_g : AdjacencyList cat VProp EProp) : Nat :=
  e.src

/-- target free function. -/
def target (e : EdgeDescriptor) (_g : AdjacencyList cat VProp EProp) : Nat :=
  e.tar

/-- getIndex free function: a vertex descriptor is its own storage index. -/
def getIndex (v : Nat) (_g : AdjacencyList cat VProp EProp) : Nat :=
  v

/-- The out-edge reference list stored at vertex v (empty on an out-of-range
descriptor, which in C++ is a precondition violation). -/
def eOutAt (g : AdjacencyList cat VProp EProp) (v : Nat) : List Nat :=
  (g.vList[v]?.map vertexEOut).getD []

/-- outEdges free function / OutEdgeRange: the stored out-edge references of v,
each dereferenced against the global store. -/
def outEdges (v : Nat) (g : AdjacencyList cat VProp EProp) : List EdgeDescriptor :=
  (eOutAt g v).map (derefEdgeRef g)

/-- outDegree free function: std::distance over the out-edge range. -/
def outDegree (v : Nat) (g : AdjacencyList cat VProp EProp) : Nat :=
  (outEdges v g).length

/-- The in-edge reference list stored at vertex v of a bidirectional graph. -/
def eInAt {VProp EProp : Type}
    (g : AdjacencyList DirectedCategory.Bidirectional VProp EProp) (v : Nat) :
    List Nat :=
  (g.vList[v]?.map StoredVertexInOut.eIn).getD []

/-- inEdges free function / InEdgeRange.  As in the source (requires-clause and
static_assert), the operation exists only at the Bidirectional instantiation:
this definition is not typeable at a Directed graph. -/
def inEdges {VProp EProp : Type} (v : Nat)
    (g : AdjacencyList DirectedCategory.Bidirectional VProp EProp) :
    List EdgeDescriptor :=
  (eInAt g v).map (derefEdgeRef g)

/-- inDegree free function: std::distance over the in-edge range; Bidirectional
graphs only, as for inEdges. -/
def inDegree {VProp EProp : Type} (v : Nat)
    (g : AdjacencyList DirectedCategory.Bidirectional VProp EProp) : Nat :=
  (inEdges v g).length

/-- addVertex(g) (adjacency_list.hpp lines 409-414): append a default-constructed
stored vertex; the returned descriptor is the prior vertex count.  Available only
for default-constructible payloads, embedded as the Inhabited bound. -/
def addVertex [Inhabited VProp] (g : AdjacencyList cat VProp EProp) :
    Nat × AdjacencyList cat VProp EProp :=
  let newV := numVertices g
  (newV, { g with vList := g.vList ++ [defaultStoredVertex cat VProp] })

/-- addVertex(vp, g) (adjacency_list.hpp lines 477-483): append a stored vertex
holding the payload; the returned descriptor is the prior vertex count. -/
def addVertexProp (vp : VProp) (g : AdjacencyList cat VProp EProp) :
    Nat × AdjacencyList cat VProp EProp :=
  let newV := numVertices g
  (newV, { g with vList := g.vList ++ [storedVertexOfProp vp] })

/-- The steps shared by all four addEdge overloads: append the stored edge to
the global store and append its index to the source vertex's out-edge
references.  Each overload below is definitionally this (plus, for the
Bidirectional overloads, the in-edge step). -/
def addEdgeAux (v u : Nat) (ep : EProp) (g : AdjacencyList cat VProp EProp) :
    AdjacencyList cat VProp EProp :=
  ⟨modifyAt g.vList v (pushEOut (numEdges g)), g.eList ++ [⟨v, u, ep⟩]⟩

/-- The in-edge step of the Bidirectional addEdge overloads: append the new
index to the target vertex's in-edge references. -/
def addEdgeAuxB {VProp EProp : Type} (v u : Nat) (ep : EProp)
    (g : AdjacencyList DirectedCategory.Bidirectional VProp EProp) :
    AdjacencyList DirectedCategory.Bidirectional VProp EProp :=
  ⟨modifyAt (addEdgeAux v u ep g).vList u (pushEIn (numEdges g)),
    (addEdgeAux v u ep g).eList⟩

/-- addEdge(v, u, g), Directed overload (adjacency_list.hpp lines 425-437):
append the stored edge, then append its index to v's out-edge references. -/
def addEdge {VProp EProp : Type} [Inhabited EProp] (v u : Nat)
    (g : AdjacencyList DirectedCategory.Directed VProp EProp) :
    EdgeDescriptor × AdjacencyList DirectedCategory.Directed VProp EProp :=
  let index := numEdges g
  let g1 : AdjacencyList DirectedCategory.Directed VProp EProp :=
    { g with eList := g.eList ++ [⟨v, u, default⟩] }
  let newEdge : EdgeDescriptor := ⟨v, u, index⟩
  (newEdge, { g1 with vList := modifyAt g1.vList (getIndex v g1) (pushEOut index) })

/-- addEdge(v, u, g), Bidirectional overload (adjacency_list.hpp lines 448-466):
as the Directed overload, and additionally append the index to u's in-edge
references. -/
def addEdgeB {VProp EProp : Type} [Inhabited EProp] (v u : Nat)
    (g : AdjacencyList DirectedCategory.Bidirectional VProp EProp) :
    EdgeDescriptor × AdjacencyList DirectedCategory.Bidirectional VProp EProp :=
  let index := numEdges g
  let g1 : AdjacencyList DirectedCategory.Bidirectional VProp EProp :=
    { g with eList := g.eList ++ [⟨v, u, default⟩] }
  let newEdge : EdgeDescriptor := ⟨v, u, index⟩
  let g2 : AdjacencyList DirectedCategory.Bidirectional VProp EProp :=
    { g1 with vList := modifyAt g1.vList (getIndex v g1) (pushEOut index) }
  (newEdge, { g2 with vList := modifyAt g2.vList (getIndex u g2) (pushEIn index) })

/-- addEdge(v, u, ep, g), Directed overload with payload (adjacency_list.hpp
lines 495-508). -/
def addEdgeProp {VProp EProp : Type} (v u : Nat) (ep : EProp)
    (g : AdjacencyList DirectedCategory.Directed VProp EProp) :
    EdgeDescriptor × AdjacencyList DirectedCategory.Directed VProp EProp :=
  let index := numEdges g
  let g1 : AdjacencyList DirectedCategory.Directed VProp EProp :=
    { g with eList := g.eList ++ [⟨v, u, ep⟩] }
  let newEdge : EdgeDescriptor := ⟨v, u, index⟩
  (newEdge, { g1 with vList := modifyAt g1.vList (getIndex v g1) (pushEOut index) })

/-- addEdge(v, u, ep, g), Bidirectional overload with payload
(adjacency_list.hpp lines 520-539). -/
def addEdgeBProp {VProp EProp : Type} (v u : Nat) (ep : EProp)
    (g : AdjacencyList DirectedCategory.Bidirectional VProp EProp) :
    EdgeDescriptor × AdjacencyList DirectedCategory.Bidirectional VProp EProp :=
  let index := numEdges g
  let g1 : AdjacencyList DirectedCategory.Bidirectional VProp EProp :=
    { g with eList := g.eList ++ [⟨v, u, ep⟩] }
  let newEdge : EdgeDescriptor := ⟨v, u, index⟩
  let g2 : AdjacencyList DirectedCategory.Bidirectional VProp EProp :=
    { g1 with vList := modifyAt g1.vList (getIndex v g1) (pushEOut index) }
  (newEdge, { g2 with vList := modifyAt g2.vList (getIndex u g2) (pushEIn index) })

/-- operator[](VertexDescriptor) (adjacency_list.hpp lines 548-550): the payload
stored at the vertex.  The C++ unchecked access is embedded fallibly; a valid
descriptor always yields some. -/
def vertexProp (g : AdjacencyList cat VProp EProp) (v : Nat) : Option VProp :=
  (g.vList[getIndex v g]?).map vertexVProp

/-- operator[](EdgeDescriptor) (adjacency_list.hpp lines 566-568): the payload
stored at the edge's index in the global store. -/
def edgeProp (g : AdjacencyList cat VProp EProp) (e : EdgeDescriptor) : Option EProp :=
  (g.eList[e.storedEdgeIdx]?).map StoredEdge.eProp

instance : Traits (AdjacencyList cat VProp EProp) where
  numVertices := numVertices
  outEdges := outEdges

/-- Adjacency consistency (spec section 3 invariants): every cached endpoint is a
live vertex, and the out-edge range of each vertex consists of exactly the
global-store edges whose source is that vertex, in creation order. -/
def WF (g : AdjacencyList cat VProp EProp) : Prop :=
  (∀ e ∈ edges g, e.src < numVertices g ∧ e.tar < numVertices g) ∧
  (∀ v, v < numVertices g → ∀ i ∈ eOutAt g v, i < numEdges g) ∧
  (∀ v, v < numVertices g →
    outEdges v g = (edges g).filter (fun e => e.src = v))

/-- The bidirectional half of adjacency consistency: the in-edge range of each
vertex consists of exactly the global-store edges whose target is that vertex,
in creation order. -/
def WFin {VProp EProp : Type}
    (g : AdjacencyList DirectedCategory.Bidirectional VProp EProp) : Prop :=
  (∀ v, v < numVertices g → ∀ i ∈ eInAt g v, i < numEdges g) ∧
  (∀ v, v < numVertices g →
    inEdges v g = (edges g).filter (fun e => e.tar = v))

instance (g : AdjacencyList cat VProp EProp) : Decidable (WF g) := by
  unfold WF; infer_instance

instance {VProp EProp : Type}
    (g : AdjacencyList DirectedCategory.Bidirectional VProp EProp) :
    Decidable (WFin g) := by
  unfold WFin; infer_instance

/-- Repeated addVertex: apply addVertex n times, collecting the returned
descriptors in call order. -/
def iterAddVertex [Inhabited VProp] :
    Nat → AdjacencyList cat VProp EProp →
    AdjacencyList cat VProp EProp × List Nat
  | 0, g => (g, [])
  | n + 1, g =>
    let r := addVertex g
    let rest := iterAddVertex n r.2
    (rest.1, r.1 :: rest.2)

end AdjacencyList

/-- What dfs needs from the graph for all its accesses to be in bounds: every
out-edge of a live vertex caches that vertex as its source and a live vertex as
its target.  (Graphs the mutation interface builds satisfy this; see the
adjacency-consistency theorems.) -/
def OutWF (G : Type) [Traits G] (g : G) : Prop :=
  ∀ u, u < numVertices g → ∀ e ∈ outEdges u g, e.src = u ∧ e.tar < numVertices g

/-- How one dfs phase may move the colour vector: every entry is either
unchanged or freshly completed (White to Black).  (Grey is transient: no entry
is Grey at a phase boundary unless it was already.) -/
def ColTr (c c' : List DFSColour) : Prop :=
  ∀ w, colAt c' w = colAt c w ∨
    (colAt c w = DFSColour.White ∧ colAt c' w = DFSColour.Black)

/-- x if vertex w was completed (White before, Black after), else 0: the shape
of every per-vertex event count over one dfs phase. -/
def newBlackCnt (c c' : List DFSColour) (w x : Nat) : Nat :=
  if colAt c w = DFSColour.White ∧ colAt c' w = DFSColour.Black then x else 0

/-- The event bookkeeping shared by dfsVisit, its edge loop, and the outer dfs
loop: colour-vector length is preserved, entries only complete (ColTr), and the
emitted events per vertex/edge are counted by newBlackCnt: one discoverVertex
and one finishVertex per completed vertex, and, per edge descriptor, one
examineEdge and one finishEdge for each occurrence in a completed vertex's
out-edge range (`extra e` is the contribution of edges of the vertex currently
being expanded, whose own completion the caller accounts for).  Exactly one
classification event (tree/back/forwardOrCross) accompanies each examineEdge,
and the phase fires no initVertex or startVertex. -/
def PhaseOut (G : Type) [Traits G] (g : G) (extra : EdgeDescriptor → Nat)
    (c c' : List DFSColour) (t : List Event) : Prop :=
  c'.length = c.length ∧
  ColTr c c' ∧
  (∀ w, t.count (Event.discoverVertex w) = newBlackCnt c c' w 1) ∧
  (∀ w, t.count (Event.finishVertex w) = newBlackCnt c c' w 1) ∧
  (∀ e, t.count (Event.examineEdge e) =
    extra e + newBlackCnt c c' e.src ((outEdges e.src g).count e)) ∧
  (∀ e, t.count (Event.finishEdge e) =
    extra e + newBlackCnt c c' e.src ((outEdges e.src g).count e)) ∧
  (∀ e, t.count (Event.treeEdge e) + t.count (Event.backEdge e) +
    t.count (Event.forwardOrCrossEdge e) = t.count (Event.examineEdge e)) ∧
  (∀ a, t.count (Event.initVertex a) = 0) ∧
  (∀ a, t.count (Event.startVertex a) = 0)

/-- a occurs in l strictly before an occurrence of b. -/
def occursBefore (l : List Nat) (a b : Nat) : Prop :=
  ∃ l1 l2, l = l1 ++ b :: l2 ∧ a ∈ l1

/-- finishVertex a is emitted in t strictly before an emission of
finishVertex b. -/
def finishedBefore (t : List Event) (a b : Nat) : Prop :=
  ∃ t1 t2, t = t1 ++ Event.finishVertex b :: t2 ∧ Event.finishVertex a ∈ t1

/-- A topological rank certifying acyclicity: strictly increasing along every
out-edge of every live vertex.  A finite directed graph admits such a rank
exactly when it is acyclic. -/
def RankedDag (G : Type) [Traits G] (g : G) (rank : Nat → Nat) : Prop :=
  ∀ u, u < numVertices g → ∀ e ∈ outEdges u g, rank e.src < rank e.tar

instance (G : Type) [Traits G] (g : G) : Decidable (OutWF G g) := by
  unfold OutWF; infer_instance

instance (G : Type) [Traits G] (g : G) (rank : Nat → Nat) :
    Decidable (RankedDag G g rank) := by
  unfold RankedDag; infer_instance

/-- Induction bundle for dfsVisit: called on a live White vertex with fuel
exceeding the number of White entries, it completes with the vertex Black, the
phase bookkeeping of PhaseOut (no loop-local edges), and strictly fewer White
entries. -/
def VisitSpec (G : Type) [Traits G] (g : G) (fuel : Nat) : Prop :=
  ∀ u cs s, cs.length = numVertices g → u < numVertices g →
    colAt cs u = DFSColour.White → cs.count DFSColour.White < fuel →
    ∃ cs' t, dfsVisit g traceVisitor fuel u cs s = some (cs', s ++ t) ∧
      PhaseOut G g (fun _ => 0) cs cs' t ∧
      colAt cs' u = DFSColour.Black ∧
      cs'.count DFSColour.White < cs.count DFSColour.White

/-- Induction bundle for the out-edge loop of dfsVisit: processing a suffix es
of the Grey vertex u's out-edge range completes with the PhaseOut bookkeeping,
the loop itself contributing one examineEdge/finishEdge per occurrence in es. -/
def EdgesSpec (G : Type) [Traits G] (g : G) (fuel : Nat) : Prop :=
  ∀ u es cs s, cs.length = numVertices g → u < numVertices g →
    colAt cs u = DFSColour.Grey → cs.count DFSColour.White < fuel →
    (∀ e ∈ es, e ∈ outEdges u g) →
    ∃ cs' t, dfsEdges (dfsVisit g traceVisitor fuel) traceVisitor es cs s
        = some (cs', s ++ t) ∧
      PhaseOut G g (fun e => es.count e) cs cs' t ∧
      cs'.count DFSColour.White ≤ cs.count DFSColour.White

/-- A dfs call site made explicit as a state transformer: the state holds the
graph (passed by const reference in C++) and the visitor-reachable state; only
the latter can change.  The Option records fuel exhaustion, shown unreachable
for in-bounds graphs. -/
def dfsCall {σ : Type} (G : Type) [Traits G] (V : Visitor σ) (p : G × σ) :
    G × Option σ :=
  (p.1, dfs p.1 V p.2)

/-- A topoSort call site as a state transformer over the graph and the output
sequence behind the caller's back_insert_iterator. -/
def topoSortCall (G : Type) [Traits G] (p : G × List Nat) :
    G × Option (List Nat) :=
  (p.1, topoSort p.1 p.2)

/-- The driver's Graph1 (test/main.cpp) and the specification's scenario graph:
vertices 0..7 built by addVertex, edges 0-3, 3-5, 5-7, 2-4, 4-6, 6-7 added in
that order, vertex 1 isolated. -/
def g8 : AdjacencyList DirectedCategory.Directed NoProp NoProp :=
  let gv := (AdjacencyList.iterAddVertex 8
    (emptyGraph DirectedCategory.Directed NoProp NoProp)).1
  (AdjacencyList.addEdge 6 7
    (AdjacencyList.addEdge 4 6
      (AdjacencyList.addEdge 2 4
        (AdjacencyList.addEdge 5 7
          (AdjacencyList.addEdge 3 5
            (AdjacencyList.addEdge 0 3 gv).2).2).2).2).2).2

/-- A two-vertex, zero-edge Directed graph. -/
def gTwo : AdjacencyList DirectedCategory.Directed NoProp NoProp :=
  (AdjacencyList.iterAddVertex 2
    (emptyGraph DirectedCategory.Directed NoProp NoProp)).1

/-- Three vertices with a 2-cycle and a cross entry: edges 0-1, 1-0, 2-1.  Its
dfs exercises all three edge classifications. -/
def gCls : AdjacencyList DirectedCategory.Directed NoProp NoProp :=
  let gv := (AdjacencyList.iterAddVertex 3
    (emptyGraph DirectedCategory.Directed NoProp NoProp)).1
  (AdjacencyList.addEdge 2 1
    (AdjacencyList.addEdge 1 0
      (AdjacencyList.addEdge 0 1 gv).2).2).2

/-- The specification's bidirectional scenario: two vertices with both edges
0-1 and 1-0 added. -/
def gBi : AdjacencyList DirectedCategory.Bidirectional NoProp NoProp :=
  let gv := (AdjacencyList.iterAddVertex 2
    (emptyGraph DirectedCategory.Bidirectional NoProp NoProp)).1
  (AdjacencyList.addEdgeB 1 0 (AdjacencyList.addEdgeB 0 1 gv).2).2


theorem colAt_set_self {cs : List DFSColour} {u : Nat} (x : DFSColour)
    (h : u < cs.length) : colAt (cs.set u x) u = x := by
  simp [colAt, List.getElem?_set_self h]

theorem colAt_set_ne {cs : List DFSColour} {u w : Nat} (x : DFSColour)
    (h : w ≠ u) : colAt (cs.set u x) w = colAt cs w := by
  simp [colAt, List.getElem?_set_ne (fun hh => h hh.symm)]

theorem colAt_eq_getElem {cs : List DFSColour} {u : Nat} (h : u < cs.length) :
    colAt cs u = cs[u] := by
  simp [colAt, List.getElem?_eq_getElem h]

theorem colAt_of_length_le {cs : List DFSColour} {u : Nat} (h : cs.length ≤ u) :
    colAt cs u = DFSColour.White := by
  simp [colAt, List.getElem?_eq_none h]

theorem count_white_set_grey {cs : List DFSColour} {u : Nat}
    (h : u < cs.length) (hw : colAt cs u = DFSColour.White) :
    (cs.set u DFSColour.Grey).count DFSColour.White + 1
      = cs.count DFSColour.White := by
  have hget : cs[u] = DFSColour.White := (colAt_eq_getElem h).symm.trans hw
  have hpos : 0 < cs.count DFSColour.White := by
    have : DFSColour.White ∈ cs := hget ▸ cs.getElem_mem h
    exact List.count_pos_iff.mpr this
  rw [List.count_set _ _ _ _ h]
  simp [hget]
  omega

theorem count_white_set_black {cs : List DFSColour} {u : Nat}
    (h : u < cs.length) (hg : colAt cs u = DFSColour.Grey) :
    (cs.set u DFSColour.Black).count DFSColour.White
      = cs.count DFSColour.White := by
  have hget : cs[u] = DFSColour.Grey := (colAt_eq_getElem h).symm.trans hg
  rw [List.count_set _ _ _ _ h]
  simp [hget]

theorem ColTr.refl (cs : List DFSColour) : ColTr cs cs :=
  fun _ => Or.inl (Eq.refl _)

theorem ColTr.trans {c1 c2 c3 : List DFSColour}
    (h12 : ColTr c1 c2) (h23 : ColTr c2 c3) : ColTr c1 c3 := by
  intro w
  rcases h12 w with h | ⟨ha, hb⟩ <;> rcases h23 w with h' | ⟨ha', hb'⟩
  · exact Or.inl (h'.trans h)
  · exact Or.inr ⟨h ▸ ha', hb'⟩
  · exact Or.inr ⟨ha, h' ▸ hb⟩
  · exact Or.inr ⟨ha, hb'⟩

theorem ColTr.grey {c1 c2 : List DFSColour} (h : ColTr c1 c2) {w : Nat}
    (hg : colAt c1 w = DFSColour.Grey) : colAt c2 w = DFSColour.Grey := by
  rcases h w with h' | ⟨ha, _⟩
  · exact h'.trans hg
  · rw [hg] at ha; cases ha

theorem ColTr.black {c1 c2 : List DFSColour} (h : ColTr c1 c2) {w : Nat}
    (hb : colAt c1 w = DFSColour.Black) : colAt c2 w = DFSColour.Black := by
  rcases h w with h' | ⟨ha, _⟩
  · exact h'.trans hb
  · rw [hb] at ha; cases ha

theorem nb_step (a b c : DFSColour) (x : Nat)
    (h1 : b = a ∨ (a = DFSColour.White ∧ b = DFSColour.Black))
    (h2 : c = b ∨ (b = DFSColour.White ∧ c = DFSColour.Black)) :
    (if a = DFSColour.White ∧ b = DFSColour.Black then x else 0) +
      (if b = DFSColour.White ∧ c = DFSColour.Black then x else 0)
      = if a = DFSColour.White ∧ c = DFSColour.Black then x else 0 := by
  cases a <;> cases b <;> cases c <;> simp_all

theorem newBlackCnt_add {c1 c2 c3 : List DFSColour} {w x : Nat}
    (h12 : ColTr c1 c2) (h23 : ColTr c2 c3) :
    newBlackCnt c1 c2 w x + newBlackCnt c2 c3 w x = newBlackCnt c1 c3 w x :=
  nb_step _ _ _ _ (h12 w) (h23 w)

theorem newBlackCnt_self (cs : List DFSColour) (w x : Nat) :
    newBlackCnt cs cs w x = 0 := by
  unfold newBlackCnt
  rw [if_neg]
  rintro ⟨h1, h2⟩
  rw [h1] at h2
  cases h2

theorem newBlackCnt_congr {c1 c2 d1 d2 : List DFSColour} {w x : Nat}
    (h1 : colAt d1 w = colAt c1 w) (h2 : colAt d2 w = colAt c2 w) :
    newBlackCnt c1 c2 w x = newBlackCnt d1 d2 w x := by
  unfold newBlackCnt
  rw [h1, h2]

theorem occursBefore_append_right {l l' : List Nat} {a b : Nat}
    (h : occursBefore l a b) : occursBefore (l ++ l') a b := by
  obtain ⟨l1, l2, rfl, hm⟩ := h
  exact ⟨l1, l2 ++ l', by simp, hm⟩

theorem occursBefore_append_left {l : List Nat} (l'' : List Nat) {a b : Nat}
    (h : occursBefore l a b) : occursBefore (l'' ++ l) a b := by
  obtain ⟨l1, l2, rfl, hm⟩ := h
  exact ⟨l'' ++ l1, l2, by simp, List.mem_append_right _ hm⟩

theorem occursBefore_reverse {l : List Nat} {a b : Nat}
    (h : occursBefore l a b) : occursBefore l.reverse b a := by
  obtain ⟨l1, l2, rfl, hm⟩ := h
  obtain ⟨p, q, rfl⟩ := List.append_of_mem hm
  refine ⟨l2.reverse ++ b :: q.reverse, p.reverse, ?_, by simp⟩
  simp

theorem finishedBefore_append_right {t t' : List Event} {a b : Nat}
    (h : finishedBefore t a b) : finishedBefore (t ++ t') a b := by
  obtain ⟨t1, t2, rfl, hm⟩ := h
  exact ⟨t1, t2 ++ t', by simp, hm⟩

theorem finishedBefore_append_left {t : List Event} (t'' : List Event) {a b : Nat}
    (h : finishedBefore t a b) : finishedBefore (t'' ++ t) a b := by
  obtain ⟨t1, t2, rfl, hm⟩ := h
  exact ⟨t'' ++ t1, t2, by simp, List.mem_append_right _ hm⟩

theorem finishedBefore_last {t1 : List Event} {a b : Nat}
    (h : Event.finishVertex a ∈ t1) :
    finishedBefore (t1 ++ [Event.finishVertex b]) a b :=
  ⟨t1, [], rfl, h⟩

theorem finishSeq_append (t1 t2 : List Event) :
    finishSeq (t1 ++ t2) = finishSeq t1 ++ finishSeq t2 :=
  List.filterMap_append _ _ _

theorem mem_finishSeq_of_mem {t : List Event} {a : Nat}
    (h : Event.finishVertex a ∈ t) : a ∈ finishSeq t :=
  List.mem_filterMap.mpr ⟨Event.finishVertex a, h, rfl⟩

theorem finishedBefore_occursBefore {t : List Event} {a b : Nat}
    (h : finishedBefore t a b) : occursBefore (finishSeq t) a b := by
  obtain ⟨t1, t2, rfl, hm⟩ := h
  refine ⟨finishSeq t1, finishSeq t2, ?_, mem_finishSeq_of_mem hm⟩
  rw [finishSeq_append]
  simp [finishSeq]

theorem foldEvents_append (V : Visitor σ) (s : σ) (t1 t2 : List Event) :
    foldEvents V s (t1 ++ t2) = foldEvents V (foldEvents V s t1) t2 :=
  List.foldl_append _ _ _ _

theorem foldEvents_trace (s : List Event) (t : List Event) :
    foldEvents traceVisitor s t = s ++ t := by
  induction t generalizing s with
  | nil => simp [foldEvents]
  | cons e t ih =>
    rw [foldEvents, List.foldl_cons, ← foldEvents, ih]
    cases e <;> simp [applyEvent, traceVisitor]

theorem foldEvents_topo (s : List Nat) (t : List Event) :
    foldEvents TopoVisitor s t = s ++ finishSeq t := by
  induction t generalizing s with
  | nil => simp [foldEvents, finishSeq]
  | cons e t ih =>
    rw [foldEvents, List.foldl_cons, ← foldEvents, ih]
    cases e <;> simp [applyEvent, TopoVisitor, DFSNullVisitor, finishSeq]


theorem dfs_phase (G : Type) [Traits G] (g : G) (hwf : OutWF G g) :
    ∀ fuel : Nat, VisitSpec G g fuel ∧ EdgesSpec G g fuel := by
  intro fuel
  induction fuel with
  | zero =>
    constructor
    · intro u cs s _ _ _ hfuel
      exact absurd hfuel (Nat.not_lt_zero _)
    · intro u es cs s _ _ _ hfuel _
      exact absurd hfuel (Nat.not_lt_zero _)
  | succ fuel IH =>
    have hvisit : VisitSpec G g (fuel + 1) := by
      intro u cs s hlen hu hw hfuel
      have hu' : u < cs.length := by rw [hlen]; exact hu
      have hcnt1 : (cs.set u DFSColour.Grey).count DFSColour.White + 1
          = cs.count DFSColour.White := count_white_set_grey hu' hw
      obtain ⟨cs2, t2, heq2, hph2, hle2⟩ :=
        IH.2 u (outEdges u g) (cs.set u DFSColour.Grey)
          (s ++ [Event.discoverVertex u])
          (by simp [hlen]) hu (colAt_set_self _ hu') (by omega)
          (fun e he => he)
      obtain ⟨hlen2, htr2, hdisc2, hfin2, hex2, hfe2, hcls2, hini2, hsta2⟩ := hph2
      have hgrey2 : colAt cs2 u = DFSColour.Grey := htr2.grey (colAt_set_self _ hu')
      have hu2 : u < cs2.length := by rw [hlen2]; simpa using hu'
      refine ⟨cs2.set u DFSColour.Black,
        Event.discoverVertex u :: (t2 ++ [Event.finishVertex u]), ?_, ?_, ?_, ?_⟩
      · simp only [dfsVisit, traceVisitor]
        simp only [traceVisitor] at heq2
        rw [heq2]
        simp [List.append_assoc]
      · refine ⟨by simp [hlen2], ?_, ?_, ?_, ?_, ?_, ?_, ?_, ?_⟩
        · -- ColTr cs (cs2.set u Black)
          intro w
          by_cases hwu : w = u
          · rw [hwu]
            exact Or.inr ⟨hw, colAt_set_self _ hu2⟩
          · have e0 : colAt (cs.set u DFSColour.Grey) w = colAt cs w :=
              colAt_set_ne _ hwu
            have e1 : colAt (cs2.set u DFSColour.Black) w = colAt cs2 w :=
              colAt_set_ne _ hwu
            rcases htr2 w with h | ⟨ha, hb⟩
            · exact Or.inl (e1.trans (h.trans e0))
            · exact Or.inr ⟨by rw [← e0]; exact ha, by rw [e1]; exact hb⟩
        · -- discoverVertex counts
          intro w
          by_cases hwu : w = u
          · rw [hwu]
            have hz : newBlackCnt (cs.set u DFSColour.Grey) cs2 u 1 = 0 := by
              unfold newBlackCnt
              rw [if_neg]
              rintro ⟨h1, _⟩
              rw [colAt_set_self _ hu'] at h1
              cases h1
            have hnb : newBlackCnt cs (cs2.set u DFSColour.Black) u 1 = 1 := by
              unfold newBlackCnt
              rw [if_pos ⟨hw, colAt_set_self _ hu2⟩]
            simp [List.count_cons, List.count_append, hdisc2 u, hz, hnb]
          · have e0 : colAt (cs.set u DFSColour.Grey) w = colAt cs w :=
              colAt_set_ne _ hwu
            have e1 : colAt (cs2.set u DFSColour.Black) w = colAt cs2 w :=
              colAt_set_ne _ hwu
            have hcg : newBlackCnt (cs.set u DFSColour.Grey) cs2 w 1
                = newBlackCnt cs (cs2.set u DFSColour.Black) w 1 :=
              newBlackCnt_congr e0.symm e1
            simp [List.count_cons, List.count_append, hdisc2 w, hcg, hwu]
        · -- finishVertex counts
          intro w
          by_cases hwu : w = u
          · rw [hwu]
            have hz : newBlackCnt (cs.set u DFSColour.Grey) cs2 u 1 = 0 := by
              unfold newBlackCnt
              rw [if_neg]
              rintro ⟨h1, _⟩
              rw [colAt_set_self _ hu'] at h1
              cases h1
            have hnb : newBlackCnt cs (cs2.set u DFSColour.Black) u 1 = 1 := by
              unfold newBlackCnt
              rw [if_pos ⟨hw, colAt_set_self _ hu2⟩]
            simp [List.count_cons, List.count_append, hfin2 u, hz, hnb]
          · have e0 : colAt (cs.set u DFSColour.Grey) w = colAt cs w :=
              colAt_set_ne _ hwu
            have e1 : colAt (cs2.set u DFSColour.Black) w = colAt cs2 w :=
              colAt_set_ne _ hwu
            have hcg : newBlackCnt (cs.set u DFSColour.Grey) cs2 w 1
                = newBlackCnt cs (cs2.set u DFSColour.Black) w 1 :=
              newBlackCnt_congr e0.symm e1
            simp [List.count_cons, List.count_append, hfin2 w, hcg, hwu]
        · -- examineEdge counts
          intro e
          replace hex2 : List.count (Event.examineEdge e) t2
              = List.count e (outEdges u g)
                + newBlackCnt (cs.set u DFSColour.Grey) cs2 e.src
                  (List.count e (outEdges e.src g)) := hex2 e
          by_cases heu : e.src = u
          · rw [heu] at hex2
            have hz : newBlackCnt (cs.set u DFSColour.Grey) cs2 u
                (List.count e (outEdges u g)) = 0 := by
              unfold newBlackCnt
              rw [if_neg]
              rintro ⟨h1, _⟩
              rw [colAt_set_self _ hu'] at h1
              cases h1
            rw [hz] at hex2
            have hnb : newBlackCnt cs (cs2.set u DFSColour.Black) u
                (List.count e (outEdges u g)) = List.count e (outEdges u g) := by
              unfold newBlackCnt
              rw [if_pos ⟨hw, colAt_set_self _ hu2⟩]
            rw [heu]
            simp [List.count_cons, List.count_append, hex2, hnb]
          · have e0 : colAt (cs.set u DFSColour.Grey) e.src = colAt cs e.src :=
              colAt_set_ne _ heu
            have e1 : colAt (cs2.set u DFSColour.Black) e.src = colAt cs2 e.src :=
              colAt_set_ne _ heu
            have hcg : newBlackCnt (cs.set u DFSColour.Grey) cs2 e.src
                  (List.count e (outEdges e.src g))
                = newBlackCnt cs (cs2.set u DFSColour.Black) e.src
                  (List.count e (outEdges e.src g)) :=
              newBlackCnt_congr e0.symm e1
            have hnotmem : e ∉ outEdges u g := by
              intro hmem
              exact heu (hwf u hu e hmem).1
            have hzero : List.count e (outEdges u g) = 0 :=
              List.count_eq_zero.mpr hnotmem
            rw [hcg, hzero] at hex2
            simp [List.count_cons, List.count_append, hex2]
        · -- finishEdge counts
          intro e
          replace hfe2 : List.count (Event.finishEdge e) t2
              = List.count e (outEdges u g)
                + newBlackCnt (cs.set u DFSColour.Grey) cs2 e.src
                  (List.count e (outEdges e.src g)) := hfe2 e
          by_cases heu : e.src = u
          · rw [heu] at hfe2
            have hz : newBlackCnt (cs.set u DFSColour.Grey) cs2 u
                (List.count e (outEdges u g)) = 0 := by
              unfold newBlackCnt
              rw [if_neg]
              rintro ⟨h1, _⟩
              rw [colAt_set_self _ hu'] at h1
              cases h1
            rw [hz] at hfe2
            have hnb : newBlackCnt cs (cs2.set u DFSColour.Black) u
                (List.count e (outEdges u g)) = List.count e (outEdges u g) := by
              unfold newBlackCnt
              rw [if_pos ⟨hw, colAt_set_self _ hu2⟩]
            rw [heu]
            simp [List.count_cons, List.count_append, hfe2, hnb]
          · have e0 : colAt (cs.set u DFSColour.Grey) e.src = colAt cs e.src :=
              colAt_set_ne _ heu
            have e1 : colAt (cs2.set u DFSColour.Black) e.src = colAt cs2 e.src :=
              colAt_set_ne _ heu
            have hcg : newBlackCnt (cs.set u DFSColour.Grey) cs2 e.src
                  (List.count e (outEdges e.src g))
                = newBlackCnt cs (cs2.set u DFSColour.Black) e.src
                  (List.count e (outEdges e.src g)) :=
              newBlackCnt_congr e0.symm e1
            have hnotmem : e ∉ outEdges u g := by
              intro hmem
              exact heu (hwf u hu e hmem).1
            have hzero : List.count e (outEdges u g) = 0 :=
              List.count_eq_zero.mpr hnotmem
            rw [hcg, hzero] at hfe2
            simp [List.count_cons, List.count_append, hfe2]
        · -- classification counts
          intro e
          have := hcls2 e
          simp [List.count_cons, List.count_append]
          omega
        · -- no initVertex
          intro a
          simp [List.count_cons, List.count_append, hini2 a]
        · -- no startVertex
          intro a
          simp [List.count_cons, List.count_append, hsta2 a]
      · exact colAt_set_self _ hu2
      · rw [count_white_set_black hu2 hgrey2]
        omega
    refine ⟨hvisit, ?_⟩
    intro u es
    induction es with
    | nil =>
      intro cs s hlen hu hg hfuel hes
      refine ⟨cs, [], by simp [dfsEdges], ?_, Nat.le.refl⟩
      refine ⟨rfl, ColTr.refl cs, ?_, ?_, ?_, ?_, ?_, ?_, ?_⟩
      · intro w; simp [newBlackCnt_self]
      · intro w; simp [newBlackCnt_self]
      · intro e; simp [newBlackCnt_self]
      · intro e; simp [newBlackCnt_self]
      · intro e; simp
      · intro a; simp
      · intro a; simp
    | cons e es ihes =>
      intro cs s hlen hu hg hfuel hes
      have hee : e ∈ outEdges u g := hes e (List.mem_cons_self e es)
      have hsrc : e.src = u := (hwf u hu e hee).1
      have htarlt : e.tar < numVertices g := (hwf u hu e hee).2
      cases htar : colAt cs e.tar with
      | White =>
        obtain ⟨cs3, t3, heq3, hph3, hbl3, hlt3⟩ :=
          hvisit e.tar cs ((s ++ [Event.examineEdge e]) ++ [Event.treeEdge e])
            hlen htarlt htar hfuel
        obtain ⟨hlen3, htr3, hdisc3, hfin3, hex3, hfe3, hcls3, hini3, hsta3⟩ := hph3
        obtain ⟨cs', t5, heq5, hph5, hle5⟩ :=
          ihes cs3
            ((((s ++ [Event.examineEdge e]) ++ [Event.treeEdge e]) ++ t3)
              ++ [Event.finishEdge e])
            (hlen3.trans hlen) hu (htr3.grey hg) (by omega)
            (fun e' he' => hes e' (List.mem_cons_of_mem e he'))
        obtain ⟨hlen5, htr5, hdisc5, hfin5, hex5, hfe5, hcls5, hini5, hsta5⟩ := hph5
        refine ⟨cs',
          Event.examineEdge e :: Event.treeEdge e ::
            (t3 ++ Event.finishEdge e :: t5), ?_, ?_, by omega⟩
        · simp only [dfsEdges, traceVisitor]
          simp only [traceVisitor] at heq3
          rw [if_pos htar, heq3]
          show dfsEdges (dfsVisit g traceVisitor (fuel + 1)) traceVisitor es cs3
              ((((s ++ [Event.examineEdge e]) ++ [Event.treeEdge e]) ++ t3)
                ++ [Event.finishEdge e])
            = some (cs', s ++ Event.examineEdge e :: Event.treeEdge e ::
                (t3 ++ Event.finishEdge e :: t5))
          rw [heq5]
          simp [List.append_assoc]
        · refine ⟨hlen5.trans hlen3, htr3.trans htr5, ?_, ?_, ?_, ?_, ?_, ?_, ?_⟩
          · intro w
            have hadd := @newBlackCnt_add _ _ _ w 1 htr3 htr5
            have h3 := hdisc3 w
            have h5 := hdisc5 w
            simp [List.count_cons, List.count_append, h3, h5]
            omega
          · intro w
            have hadd := @newBlackCnt_add _ _ _ w 1 htr3 htr5
            have h3 := hfin3 w
            have h5 := hfin5 w
            simp [List.count_cons, List.count_append, h3, h5]
            omega
          · intro e0
            have hadd := @newBlackCnt_add _ _ _ e0.src
              (List.count e0 (outEdges e0.src g)) htr3 htr5
            replace hex3 : List.count (Event.examineEdge e0) t3
                = 0 + newBlackCnt cs cs3 e0.src
                    (List.count e0 (outEdges e0.src g)) := hex3 e0
            replace hex5 : List.count (Event.examineEdge e0) t5
                = List.count e0 es + newBlackCnt cs3 cs' e0.src
                    (List.count e0 (outEdges e0.src g)) := hex5 e0
            simp [List.count_cons, List.count_append, hex3, hex5]
            omega
          · intro e0
            have hadd := @newBlackCnt_add _ _ _ e0.src
              (List.count e0 (outEdges e0.src g)) htr3 htr5
            replace hfe3 : List.count (Event.finishEdge e0) t3
                = 0 + newBlackCnt cs cs3 e0.src
                    (List.count e0 (outEdges e0.src g)) := hfe3 e0
            replace hfe5 : List.count (Event.finishEdge e0) t5
                = List.count e0 es + newBlackCnt cs3 cs' e0.src
                    (List.count e0 (outEdges e0.src g)) := hfe5 e0
            simp [List.count_cons, List.count_append, hfe3, hfe5]
            omega
          · intro e0
            have h3 := hcls3 e0
            have h5 := hcls5 e0
            simp [List.count_cons, List.count_append]
            omega
          · intro a
            simp [List.count_cons, List.count_append, hini3 a, hini5 a]
          · intro a
            simp [List.count_cons, List.count_append, hsta3 a, hsta5 a]
      | Grey =>
        obtain ⟨cs', t5, heq5, hph5, hle5⟩ :=
          ihes cs (((s ++ [Event.examineEdge e]) ++ [Event.backEdge e])
              ++ [Event.finishEdge e])
            hlen hu hg hfuel
            (fun e' he' => hes e' (List.mem_cons_of_mem e he'))
        obtain ⟨hlen5, htr5, hdisc5, hfin5, hex5, hfe5, hcls5, hini5, hsta5⟩ := hph5
        refine ⟨cs',
          Event.examineEdge e :: Event.backEdge e :: Event.finishEdge e :: t5,
          ?_, ?_, hle5⟩
        · simp only [dfsEdges, traceVisitor]
          rw [if_neg (by rw [htar]; rintro ⟨⟩), if_pos htar]
          show dfsEdges (dfsVisit g traceVisitor (fuel + 1)) traceVisitor es cs
              (((s ++ [Event.examineEdge e]) ++ [Event.backEdge e])
                ++ [Event.finishEdge e])
            = some (cs', s ++ Event.examineEdge e :: Event.backEdge e ::
                Event.finishEdge e :: t5)
          rw [heq5]
          simp [List.append_assoc]
        · refine ⟨hlen5, htr5, ?_, ?_, ?_, ?_, ?_, ?_, ?_⟩
          · intro w
            simp [List.count_cons, List.count_append, hdisc5 w]
          · intro w
            simp [List.count_cons, List.count_append, hfin5 w]
          · intro e0
            replace hex5 : List.count (Event.examineEdge e0) t5
                = List.count e0 es + newBlackCnt cs cs' e0.src
                    (List.count e0 (outEdges e0.src g)) := hex5 e0
            simp [List.count_cons, List.count_append, hex5]
            omega
          · intro e0
            replace hfe5 : List.count (Event.finishEdge e0) t5
                = List.count e0 es + newBlackCnt cs cs' e0.src
                    (List.count e0 (outEdges e0.src g)) := hfe5 e0
            simp [List.count_cons, List.count_append, hfe5]
            omega
          · intro e0
            have h5 := hcls5 e0
            simp [List.count_cons, List.count_append]
            omega
          · intro a
            simp [List.count_cons, List.count_append, hini5 a]
          · intro a
            simp [List.count_cons, List.count_append, hsta5 a]
      | Black =>
        obtain ⟨cs', t5, heq5, hph5, hle5⟩ :=
          ihes cs (((s ++ [Event.examineEdge e]) ++ [Event.forwardOrCrossEdge e])
              ++ [Event.finishEdge e])
            hlen hu hg hfuel
            (fun e' he' => hes e' (List.mem_cons_of_mem e he'))
        obtain ⟨hlen5, htr5, hdisc5, hfin5, hex5, hfe5, hcls5, hini5, hsta5⟩ := hph5
        refine ⟨cs',
          Event.examineEdge e :: Event.forwardOrCrossEdge e ::
            Event.finishEdge e :: t5, ?_, ?_, hle5⟩
        · simp only [dfsEdges, traceVisitor]
          rw [if_neg (by rw [htar]; rintro ⟨⟩), if_neg (by rw [htar]; rintro ⟨⟩)]
          show dfsEdges (dfsVisit g traceVisitor (fuel + 1)) traceVisitor es cs
              (((s ++ [Event.examineEdge e]) ++ [Event.forwardOrCrossEdge e])
                ++ [Event.finishEdge e])
            = some (cs', s ++ Event.examineEdge e :: Event.forwardOrCrossEdge e ::
                Event.finishEdge e :: t5)
          rw [heq5]
          simp [List.append_assoc]
        · refine ⟨hlen5, htr5, ?_, ?_, ?_, ?_, ?_, ?_, ?_⟩
          · intro w
            simp [List.count_cons, List.count_append, hdisc5 w]
          · intro w
            simp [List.count_cons, List.count_append, hfin5 w]
          · intro e0
            replace hex5 : List.count (Event.examineEdge e0) t5
                = List.count e0 es + newBlackCnt cs cs' e0.src
                    (List.count e0 (outEdges e0.src g)) := hex5 e0
            simp [List.count_cons, List.count_append, hex5]
            omega
          · intro e0
            replace hfe5 : List.count (Event.finishEdge e0) t5
                = List.count e0 es + newBlackCnt cs cs' e0.src
                    (List.count e0 (outEdges e0.src g)) := hfe5 e0
            simp [List.count_cons, List.count_append, hfe5]
            omega
          · intro e0
            have h5 := hcls5 e0
            simp [List.count_cons, List.count_append]
            omega
          · intro a
            simp [List.count_cons, List.count_append, hini5 a]
          · intro a
            simp [List.count_cons, List.count_append, hsta5 a]


theorem applyEvent_initVertex (V : Visitor σ) (s : σ) (v : CountingIterator) :
    applyEvent V s (Event.initVertex v) = V.initVertex v s := rfl

theorem applyEvent_startVertex (V : Visitor σ) (s : σ) (v : CountingIterator) :
    applyEvent V s (Event.startVertex v) = V.startVertex v s := rfl

theorem applyEvent_discoverVertex (V : Visitor σ) (s : σ) (v : Nat) :
    applyEvent V s (Event.discoverVertex v) = V.discoverVertex v s := rfl

theorem applyEvent_finishVertex (V : Visitor σ) (s : σ) (v : Nat) :
    applyEvent V s (Event.finishVertex v) = V.finishVertex v s := rfl

theorem applyEvent_examineEdge (V : Visitor σ) (s : σ) (e : EdgeDescriptor) :
    applyEvent V s (Event.examineEdge e) = V.examineEdge e s := rfl

theorem applyEvent_treeEdge (V : Visitor σ) (s : σ) (e : EdgeDescriptor) :
    applyEvent V s (Event.treeEdge e) = V.treeEdge e s := rfl

theorem applyEvent_backEdge (V : Visitor σ) (s : σ) (e : EdgeDescriptor) :
    applyEvent V s (Event.backEdge e) = V.backEdge e s := rfl

theorem applyEvent_forwardOrCrossEdge (V : Visitor σ) (s : σ) (e : EdgeDescriptor) :
    applyEvent V s (Event.forwardOrCrossEdge e) = V.forwardOrCrossEdge e s := rfl

theorem applyEvent_finishEdge (V : Visitor σ) (s : σ) (e : EdgeDescriptor) :
    applyEvent V s (Event.finishEdge e) = V.finishEdge e s := rfl

theorem foldEvents_nil (V : Visitor σ) (s : σ) : foldEvents V s [] = s := rfl

theorem foldEvents_cons (V : Visitor σ) (s : σ) (e : Event) (t : List Event) :
    foldEvents V s (e :: t) = foldEvents V (applyEvent V s e) t := rfl

/-- The edge loop only observes the colour vector, never the visitor state, so a
run with any visitor is the canonical trace run replayed against that visitor.
`visitT` is the trace instance of the recursive call and `hshift` its
prefix-irrelevance; `hfac` relates the actual recursive call to it. -/
theorem dfsEdges_factor
    (visitT : Nat → List DFSColour → List Event → Option (List DFSColour × List Event))
    (hshift : ∀ u cs t0, visitT u cs t0
      = Option.map (fun p => (p.1, t0 ++ p.2)) (visitT u cs [])) :
    ∀ es : List EdgeDescriptor, ∀ {σ : Type} (V : Visitor σ)
      (visitV : Nat → List DFSColour → σ → Option (List DFSColour × σ)),
      (∀ u cs s, visitV u cs s
        = Option.map (fun p => (p.1, foldEvents V s p.2)) (visitT u cs [])) →
      ∀ cs s, dfsEdges visitV V es cs s
        = Option.map (fun p => (p.1, foldEvents V s p.2))
            (dfsEdges visitT traceVisitor es cs []) := by
  have hTfac : ∀ u cs t0, visitT u cs t0
      = Option.map (fun p => (p.1, foldEvents traceVisitor t0 p.2)) (visitT u cs []) := by
    intro u cs t0
    rw [hshift u cs t0]
    cases visitT u cs [] <;> simp [foldEvents_trace]
  intro es
  induction es with
  | nil =>
    intro σ V visitV hfac cs s
    rfl
  | cons e es ih =>
    intro σ V visitV hfac cs s
    simp only [dfsEdges]
    by_cases h1 : colAt cs e.tar = DFSColour.White
    · rw [if_pos h1, if_pos h1]
      rw [hfac e.tar cs _]
      rw [hshift e.tar cs (traceVisitor.treeEdge e (traceVisitor.examineEdge e []))]
      cases hv : visitT e.tar cs [] with
      | none => rfl
      | some q =>
        obtain ⟨c3, t3⟩ := q
        simp only [Option.map_some']
        rw [ih V visitV hfac c3
          (V.finishEdge e (foldEvents V (V.treeEdge e (V.examineEdge e s)) t3))]
        rw [ih traceVisitor visitT hTfac c3
          (traceVisitor.finishEdge e
            (traceVisitor.treeEdge e (traceVisitor.examineEdge e []) ++ t3))]
        cases hr : dfsEdges visitT traceVisitor es c3 [] with
        | none => rfl
        | some r =>
          obtain ⟨c4, t4⟩ := r
          simp only [Option.map_some']
          rw [foldEvents_trace]
          simp [traceVisitor, foldEvents_append, foldEvents_cons, foldEvents_nil,
            applyEvent_examineEdge, applyEvent_treeEdge, applyEvent_finishEdge]
    · rw [if_neg h1, if_neg h1]
      by_cases h2 : colAt cs e.tar = DFSColour.Grey
      · rw [if_pos h2, if_pos h2]
        rw [ih V visitV hfac cs (V.finishEdge e (V.backEdge e (V.examineEdge e s)))]
        rw [ih traceVisitor visitT hTfac cs
          (traceVisitor.finishEdge e (traceVisitor.backEdge e (traceVisitor.examineEdge e [])))]
        cases hr : dfsEdges visitT traceVisitor es cs [] with
        | none => rfl
        | some r =>
          obtain ⟨c4, t4⟩ := r
          simp only [Option.map_some']
          rw [foldEvents_trace]
          simp [traceVisitor, foldEvents_append, foldEvents_cons, foldEvents_nil,
            applyEvent_examineEdge, applyEvent_backEdge, applyEvent_finishEdge]
      · rw [if_neg h2, if_neg h2]
        rw [ih V visitV hfac cs
          (V.finishEdge e (V.forwardOrCrossEdge e (V.examineEdge e s)))]
        rw [ih traceVisitor visitT hTfac cs
          (traceVisitor.finishEdge e
            (traceVisitor.forwardOrCrossEdge e (traceVisitor.examineEdge e [])))]
        cases hr : dfsEdges visitT traceVisitor es cs [] with
        | none => rfl
        | some r =>
          obtain ⟨c4, t4⟩ := r
          simp only [Option.map_some']
          rw [foldEvents_trace]
          simp [traceVisitor, foldEvents_append, foldEvents_cons, foldEvents_nil,
            applyEvent_examineEdge, applyEvent_forwardOrCrossEdge, applyEvent_finishEdge]


/-- dfsVisit with any visitor is the canonical trace run replayed against it. -/
theorem dfsVisit_factor (G : Type) [Traits G] (g : G) :
    ∀ fuel : Nat, ∀ {σ : Type} (V : Visitor σ), ∀ u cs s,
      dfsVisit g V fuel u cs s
        = Option.map (fun p => (p.1, foldEvents V s p.2))
            (dfsVisit g traceVisitor fuel u cs []) := by
  intro fuel
  induction fuel with
  | zero => intro σ V u cs s; rfl
  | succ fuel IH =>
    intro σ V u cs s
    have hshift : ∀ u cs t0, dfsVisit g traceVisitor fuel u cs t0
        = Option.map (fun p => (p.1, t0 ++ p.2))
            (dfsVisit g traceVisitor fuel u cs []) := by
      intro u cs t0
      rw [IH traceVisitor u cs t0]
      cases dfsVisit g traceVisitor fuel u cs [] <;> simp [foldEvents_trace]
    simp only [dfsVisit]
    rw [dfsEdges_factor (dfsVisit g traceVisitor fuel) hshift (outEdges u g) V
      (dfsVisit g V fuel) (fun u cs s => IH V u cs s)
      (cs.set u DFSColour.Grey) (V.discoverVertex u s)]
    rw [dfsEdges_factor (dfsVisit g traceVisitor fuel) hshift (outEdges u g)
      traceVisitor (dfsVisit g traceVisitor fuel)
      (fun u cs t0 => by
        rw [hshift u cs t0]
        cases dfsVisit g traceVisitor fuel u cs [] <;> simp [foldEvents_trace])
      (cs.set u DFSColour.Grey) (traceVisitor.discoverVertex u [])]
    cases hr : dfsEdges (dfsVisit g traceVisitor fuel) traceVisitor (outEdges u g)
        (cs.set u DFSColour.Grey) [] with
    | none => rfl
    | some r =>
      obtain ⟨c2, t2⟩ := r
      simp only [Option.map_some']
      have h1 : traceVisitor.discoverVertex u [] = [Event.discoverVertex u] := rfl
      have h2 : traceVisitor.finishVertex u ([Event.discoverVertex u] ++ t2)
          = ([Event.discoverVertex u] ++ t2) ++ [Event.finishVertex u] := rfl
      rw [h1, foldEvents_trace, h2]
      simp [foldEvents_append, foldEvents_cons, foldEvents_nil,
        applyEvent_discoverVertex, applyEvent_finishVertex]

/-- The outer seeding loop of dfs with any visitor is the canonical trace run
replayed against it. -/
theorem dfsOuter_factor (G : Type) [Traits G] (g : G) :
    ∀ vs : List Nat, ∀ {σ : Type} (V : Visitor σ), ∀ cs s,
      dfsOuter g V vs cs s
        = Option.map (fun p => (p.1, foldEvents V s p.2))
            (dfsOuter g traceVisitor vs cs []) := by
  intro vs
  induction vs with
  | nil => intro σ V cs s; rfl
  | cons v vs ih =>
    intro σ V cs s
    simp only [dfsOuter]
    by_cases hv : colAt cs v = DFSColour.White
    · rw [if_pos hv, if_pos hv]
      rw [dfsVisit_factor G g (numVertices g + 1) V v cs (V.startVertex ⟨v⟩ s)]
      rw [dfsVisit_factor G g (numVertices g + 1) traceVisitor v cs
        (traceVisitor.startVertex ⟨v⟩ [])]
      cases hV : dfsVisit g traceVisitor (numVertices g + 1) v cs [] with
      | none => rfl
      | some p =>
        obtain ⟨c1, t1⟩ := p
        simp only [Option.map_some']
        rw [ih V c1 (foldEvents V (V.startVertex ⟨v⟩ s) t1)]
        rw [ih traceVisitor c1 (foldEvents traceVisitor (traceVisitor.startVertex ⟨v⟩ []) t1)]
        cases hr : dfsOuter g traceVisitor vs c1 [] with
        | none => rfl
        | some r =>
          obtain ⟨c2, t2⟩ := r
          simp only [Option.map_some']
          rw [foldEvents_trace, foldEvents_trace]
          simp [traceVisitor, foldEvents_append, foldEvents_cons, foldEvents_nil,
            applyEvent_startVertex]
    · rw [if_neg hv, if_neg hv]
      rw [ih V cs s, ih traceVisitor cs []]

/-- The initVertex loop of dfs, for any visitor, folds the initVertex events of
the listed iterator positions over the initial state. -/
theorem initFold_eq (V : Visitor σ) :
    ∀ (l : List Nat) (s : σ),
      l.foldl (fun s i => V.initVertex ⟨i⟩ s) s
        = foldEvents V s (l.map (fun i => Event.initVertex ⟨i⟩)) := by
  intro l
  induction l with
  | nil => intro s; rfl
  | cons i l ih =>
    intro s
    simp only [List.foldl_cons, List.map_cons, foldEvents_cons, applyEvent_initVertex]
    exact ih _

/-- dfs with any visitor from any initial state is the canonical trace (the run
with the recording visitor from the empty trace) replayed against that visitor:
callbacks neither steer the traversal nor see each other except through the
states this fold threads. -/
theorem dfs_factor (G : Type) [Traits G] (g : G) {σ : Type} (V : Visitor σ) (s : σ) :
    dfs g V s = Option.map (fun t => foldEvents V s t) (dfs g traceVisitor []) := by
  simp only [dfs]
  rw [initFold_eq V (List.range (numVertices g)) s,
    initFold_eq traceVisitor (List.range (numVertices g)) []]
  rw [dfsOuter_factor G g (List.range (numVertices g)) V
    (List.replicate (numVertices g) DFSColour.White)
    (foldEvents V s ((List.range (numVertices g)).map (fun i => Event.initVertex ⟨i⟩)))]
  rw [dfsOuter_factor G g (List.range (numVertices g)) traceVisitor
    (List.replicate (numVertices g) DFSColour.White)
    (foldEvents traceVisitor [] ((List.range (numVertices g)).map (fun i => Event.initVertex ⟨i⟩)))]
  cases hr : dfsOuter g traceVisitor (List.range (numVertices g))
      (List.replicate (numVertices g) DFSColour.White) [] with
  | none => rfl
  | some r =>
    obtain ⟨c2, t2⟩ := r
    simp only [Option.map_some']
    rw [foldEvents_trace, foldEvents_trace]
    simp [foldEvents_append]


theorem colAt_replicate_white (n v : Nat) :
    colAt (List.replicate n DFSColour.White) v = DFSColour.White := by
  simp only [colAt, List.getElem?_replicate]
  split <;> rfl

/-- The seeding loop of dfs: scanning any vertex list from a Grey-free colour
vector completes, leaves the vector Grey-free, turns every listed vertex Black,
and does the PhaseOut event bookkeeping of the trees it seeds (plus startVertex
events, which PhaseOut does not constrain here). -/
theorem dfsOuter_phase (G : Type) [Traits G] (g : G) (hwf : OutWF G g) :
    ∀ (vs : List Nat) (cs : List DFSColour) (s : List Event),
      cs.length = numVertices g →
      (∀ w, colAt cs w ≠ DFSColour.Grey) →
      (∀ v ∈ vs, v < numVertices g) →
      ∃ cs' t, dfsOuter g traceVisitor vs cs s = some (cs', s ++ t) ∧
        cs'.length = numVertices g ∧
        ColTr cs cs' ∧
        (∀ w, colAt cs' w ≠ DFSColour.Grey) ∧
        (∀ v ∈ vs, colAt cs' v = DFSColour.Black) ∧
        (∀ w, t.count (Event.discoverVertex w) = newBlackCnt cs cs' w 1) ∧
        (∀ w, t.count (Event.finishVertex w) = newBlackCnt cs cs' w 1) ∧
        (∀ e, t.count (Event.examineEdge e)
          = newBlackCnt cs cs' e.src (List.count e (outEdges e.src g))) ∧
        (∀ e, t.count (Event.finishEdge e)
          = newBlackCnt cs cs' e.src (List.count e (outEdges e.src g))) ∧
        (∀ e, t.count (Event.treeEdge e) + t.count (Event.backEdge e) +
          t.count (Event.forwardOrCrossEdge e) = t.count (Event.examineEdge e)) ∧
        (∀ a, t.count (Event.initVertex a) = 0) := by
  intro vs
  induction vs with
  | nil =>
    intro cs s hlen hng _
    refine ⟨cs, [], by simp [dfsOuter], hlen, ColTr.refl cs, hng, by simp, ?_, ?_, ?_, ?_, ?_, ?_⟩
    · intro w; simp [newBlackCnt_self]
    · intro w; simp [newBlackCnt_self]
    · intro e; simp [newBlackCnt_self]
    · intro e; simp [newBlackCnt_self]
    · intro e; simp
    · intro a; simp
  | cons v vs ih =>
    intro cs s hlen hng hbd
    have hvlt : v < numVertices g := hbd v (List.mem_cons_self v vs)
    by_cases hv : colAt cs v = DFSColour.White
    · have hcnt : cs.count DFSColour.White < numVertices g + 1 := by
        have := List.count_le_length DFSColour.White cs
        omega
      obtain ⟨cs1, t1, heq1, hph1, hbl1, hlt1⟩ :=
        ((dfs_phase G g hwf (numVertices g + 1)).1) v cs
          (s ++ [Event.startVertex ⟨v⟩]) hlen hvlt hv hcnt
      obtain ⟨hlen1, htr1, hdisc1, hfin1, hex1, hfe1, hcls1, hini1, hsta1⟩ := hph1
      have hng1 : ∀ w, colAt cs1 w ≠ DFSColour.Grey := by
        intro w
        rcases htr1 w with h | ⟨_, hb⟩
        · rw [h]; exact hng w
        · rw [hb]; intro hc; cases hc
      obtain ⟨cs', t2, heq2, hlen2, htr2, hng2, hbk2, hdisc2, hfin2, hex2, hfe2, hcls2, hini2⟩ :=
        ih cs1 ((s ++ [Event.startVertex ⟨v⟩]) ++ t1) (hlen1.trans hlen) hng1
          (fun v' hv' => hbd v' (List.mem_cons_of_mem v hv'))
      refine ⟨cs', Event.startVertex ⟨v⟩ :: (t1 ++ t2), ?_, hlen2, htr1.trans htr2,
        hng2, ?_, ?_, ?_, ?_, ?_, ?_, ?_⟩
      · simp only [dfsOuter, traceVisitor]
        rw [if_pos hv]
        simp only [traceVisitor] at heq1
        rw [heq1]
        show dfsOuter g traceVisitor vs cs1 ((s ++ [Event.startVertex ⟨v⟩]) ++ t1)
          = some (cs', s ++ Event.startVertex ⟨v⟩ :: (t1 ++ t2))
        rw [heq2]
        simp [List.append_assoc]
      · intro v' hv'
        rcases List.mem_cons.mp hv' with h | h
        · rw [h]
          exact htr2.black hbl1
        · exact hbk2 v' h
      · intro w
        have hadd := @newBlackCnt_add _ _ _ w 1 htr1 htr2
        simp [List.count_cons, List.count_append, hdisc1 w, hdisc2 w]
        omega
      · intro w
        have hadd := @newBlackCnt_add _ _ _ w 1 htr1 htr2
        simp [List.count_cons, List.count_append, hfin1 w, hfin2 w]
        omega
      · intro e
        have hadd := @newBlackCnt_add _ _ _ e.src
          (List.count e (outEdges e.src g)) htr1 htr2
        replace hex1 : List.count (Event.examineEdge e) t1
            = 0 + newBlackCnt cs cs1 e.src (List.count e (outEdges e.src g)) := hex1 e
        simp [List.count_cons, List.count_append, hex1, hex2 e]
        omega
      · intro e
        have hadd := @newBlackCnt_add _ _ _ e.src
          (List.count e (outEdges e.src g)) htr1 htr2
        replace hfe1 : List.count (Event.finishEdge e) t1
            = 0 + newBlackCnt cs cs1 e.src (List.count e (outEdges e.src g)) := hfe1 e
        simp [List.count_cons, List.count_append, hfe1, hfe2 e]
        omega
      · intro e
        have h1 := hcls1 e
        have h2 := hcls2 e
        simp [List.count_cons, List.count_append]
        omega
      · intro a
        simp [List.count_cons, List.count_append, hini1 a, hini2 a]
    · obtain ⟨cs', t2, heq2, hlen2, htr2, hng2, hbk2, hdisc2, hfin2, hex2, hfe2, hcls2, hini2⟩ :=
        ih cs s hlen hng (fun v' hv' => hbd v' (List.mem_cons_of_mem v hv'))
      have hbv : colAt cs v = DFSColour.Black := by
        cases hcv : colAt cs v with
        | White => exact absurd hcv hv
        | Grey => exact absurd hcv (hng v)
        | Black => rfl
      refine ⟨cs', t2, ?_, hlen2, htr2, hng2, ?_, hdisc2, hfin2, hex2, hfe2, hcls2, hini2⟩
      · simp only [dfsOuter]
        rw [if_neg hv]
        exact heq2
      · intro v' hv'
        rcases List.mem_cons.mp hv' with h | h
        · rw [h]
          exact htr2.black hbv
        · exact hbk2 v' h

/-- Running dfs with the recording visitor on an in-bounds graph: the trace is
the initVertex events for the iterators 0..n-1 in ascending order, followed by a
traversal trace that colours every vertex Black and contains, per live vertex,
exactly one discoverVertex and one finishVertex, per edge occurrence exactly one
examineEdge and one finishEdge with exactly one classification event, and no
initVertex. -/
theorem dfs_trace (G : Type) [Traits G] (g : G) (hwf : OutWF G g) :
    ∃ cs' t,
      dfs g traceVisitor []
        = some ((List.range (numVertices g)).map (fun i => Event.initVertex ⟨i⟩) ++ t) ∧
      cs'.length = numVertices g ∧
      (∀ v, v < numVertices g → colAt cs' v = DFSColour.Black) ∧
      (∀ w, t.count (Event.discoverVertex w)
        = newBlackCnt (List.replicate (numVertices g) DFSColour.White) cs' w 1) ∧
      (∀ w, t.count (Event.finishVertex w)
        = newBlackCnt (List.replicate (numVertices g) DFSColour.White) cs' w 1) ∧
      (∀ e, t.count (Event.examineEdge e)
        = newBlackCnt (List.replicate (numVertices g) DFSColour.White) cs' e.src
            (List.count e (outEdges e.src g))) ∧
      (∀ e, t.count (Event.finishEdge e)
        = newBlackCnt (List.replicate (numVertices g) DFSColour.White) cs' e.src
            (List.count e (outEdges e.src g))) ∧
      (∀ e, t.count (Event.treeEdge e) + t.count (Event.backEdge e) +
        t.count (Event.forwardOrCrossEdge e) = t.count (Event.examineEdge e)) ∧
      (∀ a, t.count (Event.initVertex a) = 0) := by
  obtain ⟨cs', t, heq, hlen, htr, hng, hbk, hdisc, hfin, hex, hfe, hcls, hini⟩ :=
    dfsOuter_phase G g hwf (List.range (numVertices g))
      (List.replicate (numVertices g) DFSColour.White)
      ((List.range (numVertices g)).map (fun i => Event.initVertex ⟨i⟩))
      (by simp) (fun w => by rw [colAt_replicate_white]; intro h; cases h)
      (fun v hv => List.mem_range.mp hv)
  refine ⟨cs', t, ?_, hlen, ?_, hdisc, hfin, hex, hfe, hcls, hini⟩
  · simp only [dfs]
    rw [initFold_eq traceVisitor (List.range (numVertices g)) []]
    rw [foldEvents_trace]
    simp only [List.nil_append]
    rw [heq]
    rfl
  · intro v hv
    exact hbk v (List.mem_range.mpr hv)


/-- The finish-time argument, by induction over the traversal: under a
topological rank (so the graph is acyclic), every Grey vertex ranks no higher
than the vertex being expanded, every Black vertex has already emitted its
finishVertex, and each newly completed vertex emits the finishVertex of each of
its out-targets strictly before its own. -/
theorem dfs_topo_phase (G : Type) [Traits G] (g : G) (hwf : OutWF G g)
    (rank : Nat → Nat) (hrank : RankedDag G g rank) :
    ∀ fuel : Nat,
      (∀ u cs s, cs.length = numVertices g → u < numVertices g →
        colAt cs u = DFSColour.White → cs.count DFSColour.White < fuel →
        (∀ w, colAt cs w = DFSColour.Grey → rank w ≤ rank u) →
        (∀ w, colAt cs w = DFSColour.Black → Event.finishVertex w ∈ s) →
        ∀ cs' s', dfsVisit g traceVisitor fuel u cs s = some (cs', s') →
          (∀ w, colAt cs' w = DFSColour.Black → Event.finishVertex w ∈ s') ∧
          (∀ w, colAt cs w = DFSColour.White → colAt cs' w = DFSColour.Black →
            ∀ e ∈ outEdges w g, finishedBefore s' e.tar w))
      ∧
      (∀ u es cs s, cs.length = numVertices g → u < numVertices g →
        colAt cs u = DFSColour.Grey → cs.count DFSColour.White < fuel →
        (∀ e ∈ es, e ∈ outEdges u g) →
        (∀ w, colAt cs w = DFSColour.Grey → rank w ≤ rank u) →
        (∀ w, colAt cs w = DFSColour.Black → Event.finishVertex w ∈ s) →
        ∀ cs' s', dfsEdges (dfsVisit g traceVisitor fuel) traceVisitor es cs s
            = some (cs', s') →
          (∀ w, colAt cs' w = DFSColour.Black → Event.finishVertex w ∈ s') ∧
          (∀ w, colAt cs w = DFSColour.White → colAt cs' w = DFSColour.Black →
            ∀ e ∈ outEdges w g, finishedBefore s' e.tar w) ∧
          (∀ e ∈ es, Event.finishVertex e.tar ∈ s')) := by
  intro fuel
  induction fuel with
  | zero =>
    constructor
    · intro u cs s _ _ _ hfuel
      exact absurd hfuel (Nat.not_lt_zero _)
    · intro u es cs s _ _ _ hfuel
      exact absurd hfuel (Nat.not_lt_zero _)
  | succ fuel IH =>
    have hvisit : ∀ u cs s, cs.length = numVertices g → u < numVertices g →
        colAt cs u = DFSColour.White → cs.count DFSColour.White < fuel + 1 →
        (∀ w, colAt cs w = DFSColour.Grey → rank w ≤ rank u) →
        (∀ w, colAt cs w = DFSColour.Black → Event.finishVertex w ∈ s) →
        ∀ cs' s', dfsVisit g traceVisitor (fuel + 1) u cs s = some (cs', s') →
          (∀ w, colAt cs' w = DFSColour.Black → Event.finishVertex w ∈ s') ∧
          (∀ w, colAt cs w = DFSColour.White → colAt cs' w = DFSColour.Black →
            ∀ e ∈ outEdges w g, finishedBefore s' e.tar w) := by
      intro u cs s hlen hu hw hfuel hgrey hsync cs' s' heqhyp
      have hu' : u < cs.length := by rw [hlen]; exact hu
      have hcnt1 : (cs.set u DFSColour.Grey).count DFSColour.White + 1
          = cs.count DFSColour.White := count_white_set_grey hu' hw
      obtain ⟨cs2, t2, heq2, hph2, hle2⟩ :=
        (dfs_phase G g hwf fuel).2 u (outEdges u g) (cs.set u DFSColour.Grey)
          (s ++ [Event.discoverVertex u])
          (by simp [hlen]) hu (colAt_set_self _ hu') (by omega)
          (fun e he => he)
      obtain ⟨hlen2, htr2, _, _, _, _, _, _, _⟩ := hph2
      have heqv : dfsVisit g traceVisitor (fuel + 1) u cs s
          = some (cs2.set u DFSColour.Black,
              ((s ++ [Event.discoverVertex u]) ++ t2) ++ [Event.finishVertex u]) := by
        simp only [dfsVisit, traceVisitor]
        simp only [traceVisitor] at heq2
        rw [heq2]
      rw [heqv] at heqhyp
      simp only [Option.some.injEq, Prod.mk.injEq] at heqhyp
      obtain ⟨hceq, hseq⟩ := heqhyp
      subst hceq
      subst hseq
      obtain ⟨hsync2, hnewb2, hestar2⟩ :=
        (IH.2) u (outEdges u g) (cs.set u DFSColour.Grey)
          (s ++ [Event.discoverVertex u])
          (by simp [hlen]) hu (colAt_set_self _ hu') (by omega)
          (fun e he => he)
          (by
            intro w hgw
            by_cases hwu : w = u
            · rw [hwu]
            · exact hgrey w ((colAt_set_ne _ hwu) ▸ hgw))
          (by
            intro w hbw
            by_cases hwu : w = u
            · rw [hwu] at hbw
              rw [colAt_set_self _ hu'] at hbw
              cases hbw
            · exact List.mem_append.mpr (Or.inl
                (hsync w ((colAt_set_ne _ hwu) ▸ hbw))))
          cs2 ((s ++ [Event.discoverVertex u]) ++ t2) heq2
      have hu2 : u < cs2.length := by rw [hlen2]; simpa using hu'
      constructor
      · intro w hbw
        by_cases hwu : w = u
        · rw [hwu]
          exact List.mem_append.mpr (Or.inr (List.mem_singleton.mpr rfl))
        · rw [colAt_set_ne _ hwu] at hbw
          exact List.mem_append.mpr (Or.inl (hsync2 w hbw))
      · intro w hww hbw
        by_cases hwu : w = u
        · rw [hwu]
          intro e he
          exact finishedBefore_last (hestar2 e he)
        · rw [colAt_set_ne _ hwu] at hbw
          intro e he
          exact finishedBefore_append_right
            (hnewb2 w (by rw [colAt_set_ne _ hwu]; exact hww) hbw e he)
    refine ⟨hvisit, ?_⟩
    intro u es
    induction es with
    | nil =>
      intro cs s hlen hu hg hfuel hes hgrey hsync cs' s' heqhyp
      have : some (cs, s) = some (cs', s') := by
        rw [← heqhyp]; rfl
      simp only [Option.some.injEq, Prod.mk.injEq] at this
      obtain ⟨hceq, hseq⟩ := this
      subst hceq
      subst hseq
      refine ⟨hsync, ?_, by simp⟩
      intro w hww hbw
      rw [hww] at hbw
      cases hbw
    | cons e es ihes =>
      intro cs s hlen hu hg hfuel hes hgrey hsync cs' s' heqhyp
      have hee : e ∈ outEdges u g := hes e (List.mem_cons_self e es)
      have hsrc : e.src = u := (hwf u hu e hee).1
      have htarlt : e.tar < numVertices g := (hwf u hu e hee).2
      cases htar : colAt cs e.tar with
      | Grey =>
        have h1 : rank e.tar ≤ rank u := hgrey e.tar htar
        have h2 : rank e.src < rank e.tar := hrank u hu e hee
        rw [hsrc] at h2
        omega
      | White =>
        obtain ⟨cs3, t3, heq3, hph3, hbl3, hlt3⟩ :=
          (dfs_phase G g hwf (fuel + 1)).1 e.tar cs
            ((s ++ [Event.examineEdge e]) ++ [Event.treeEdge e])
            hlen htarlt htar hfuel
        obtain ⟨hlen3, htr3, _, _, _, _, _, _, _⟩ := hph3
        obtain ⟨hsync3, hnewb3⟩ :=
          hvisit e.tar cs ((s ++ [Event.examineEdge e]) ++ [Event.treeEdge e])
            hlen htarlt htar hfuel
            (fun w hgw => le_trans (hgrey w hgw) (le_of_lt (hsrc ▸ hrank u hu e hee)))
            (fun w hbw => List.mem_append.mpr (Or.inl (List.mem_append.mpr (Or.inl
              (hsync w hbw)))))
            cs3 (((s ++ [Event.examineEdge e]) ++ [Event.treeEdge e]) ++ t3) heq3
        obtain ⟨cs5, t5, heq5, hph5, hle5⟩ :=
          (dfs_phase G g hwf (fuel + 1)).2 u es cs3
            ((((s ++ [Event.examineEdge e]) ++ [Event.treeEdge e]) ++ t3)
              ++ [Event.finishEdge e])
            (hlen3.trans hlen) hu (htr3.grey hg) (by omega)
            (fun e' he' => hes e' (List.mem_cons_of_mem e he'))
        have heqc : dfsEdges (dfsVisit g traceVisitor (fuel + 1)) traceVisitor
            (e :: es) cs s
            = some (cs5,
              (((((s ++ [Event.examineEdge e]) ++ [Event.treeEdge e]) ++ t3)
                ++ [Event.finishEdge e]) ++ t5)) := by
          simp only [dfsEdges, traceVisitor]
          simp only [traceVisitor] at heq3
          rw [if_pos htar, heq3]
          show dfsEdges (dfsVisit g traceVisitor (fuel + 1)) traceVisitor es cs3
              ((((s ++ [Event.examineEdge e]) ++ [Event.treeEdge e]) ++ t3)
                ++ [Event.finishEdge e]) = _
          rw [heq5]
        rw [heqc] at heqhyp
        simp only [Option.some.injEq, Prod.mk.injEq] at heqhyp
        obtain ⟨hceq, hseq⟩ := heqhyp
        subst hceq
        subst hseq
        obtain ⟨hsync5, hnewb5, hestar5⟩ :=
          ihes cs3
            ((((s ++ [Event.examineEdge e]) ++ [Event.treeEdge e]) ++ t3)
              ++ [Event.finishEdge e])
            (hlen3.trans hlen) hu (htr3.grey hg) (by omega)
            (fun e' he' => hes e' (List.mem_cons_of_mem e he'))
            (fun w hgw => hgrey w (by
              rcases htr3 w with h | ⟨ha, hb⟩
              · rw [← h]; exact hgw
              · rw [hb] at hgw; cases hgw))
            (fun w hbw => List.mem_append.mpr (Or.inl (hsync3 w hbw)))
            cs5 _ heq5
        refine ⟨hsync5, ?_, ?_⟩
        · intro w hww hbw
          intro e0 he0
          cases hc3 : colAt cs3 w with
          | Black =>
            exact finishedBefore_append_right (finishedBefore_append_right
              (hnewb3 w hww hc3 e0 he0))
          | White =>
            exact hnewb5 w hc3 hbw e0 he0
          | Grey =>
            rcases htr3 w with h | ⟨ha, hb⟩
            · rw [hww] at h
              rw [h] at hc3
              cases hc3
            · rw [hb] at hc3
              cases hc3
        · intro e0 he0
          rcases List.mem_cons.mp he0 with h | h
          · rw [h]
            have : Event.finishVertex e.tar
                ∈ (((s ++ [Event.examineEdge e]) ++ [Event.treeEdge e]) ++ t3) :=
              hsync3 e.tar hbl3
            exact List.mem_append.mpr (Or.inl (List.mem_append.mpr (Or.inl this)))
          · exact hestar5 e0 h
      | Black =>
        obtain ⟨cs5, t5, heq5, hph5, hle5⟩ :=
          (dfs_phase G g hwf (fuel + 1)).2 u es cs
            (((s ++ [Event.examineEdge e]) ++ [Event.forwardOrCrossEdge e])
              ++ [Event.finishEdge e])
            hlen hu hg hfuel
            (fun e' he' => hes e' (List.mem_cons_of_mem e he'))
        have heqc : dfsEdges (dfsVisit g traceVisitor (fuel + 1)) traceVisitor
            (e :: es) cs s
            = some (cs5,
              ((((s ++ [Event.examineEdge e]) ++ [Event.forwardOrCrossEdge e])
                ++ [Event.finishEdge e]) ++ t5)) := by
          simp only [dfsEdges, traceVisitor]
          rw [if_neg (by rw [htar]; rintro ⟨⟩), if_neg (by rw [htar]; rintro ⟨⟩)]
          show dfsEdges (dfsVisit g traceVisitor (fuel + 1)) traceVisitor es cs
              (((s ++ [Event.examineEdge e]) ++ [Event.forwardOrCrossEdge e])
                ++ [Event.finishEdge e]) = _
          rw [heq5]
        rw [heqc] at heqhyp
        simp only [Option.some.injEq, Prod.mk.injEq] at heqhyp
        obtain ⟨hceq, hseq⟩ := heqhyp
        subst hceq
        subst hseq
        obtain ⟨hsync5, hnewb5, hestar5⟩ :=
          ihes cs
            (((s ++ [Event.examineEdge e]) ++ [Event.forwardOrCrossEdge e])
              ++ [Event.finishEdge e])
            hlen hu hg hfuel
            (fun e' he' => hes e' (List.mem_cons_of_mem e he'))
            hgrey
            (fun w hbw => List.mem_append.mpr (Or.inl (List.mem_append.mpr (Or.inl
              (List.mem_append.mpr (Or.inl (hsync w hbw)))))))
            cs5 _ heq5
        refine ⟨hsync5, hnewb5, ?_⟩
        intro e0 he0
        rcases List.mem_cons.mp he0 with h | h
        · rw [h]
          have hin : Event.finishVertex e.tar ∈ s := hsync e.tar htar
          exact List.mem_append.mpr (Or.inl (List.mem_append.mpr (Or.inl
            (List.mem_append.mpr (Or.inl (List.mem_append.mpr (Or.inl hin)))))))
        · exact hestar5 e0 h


/-- The seeding loop preserves the finish-sync invariant and yields the
finish-before-ordering for every vertex it completes. -/
theorem dfsOuter_topo (G : Type) [Traits G] (g : G) (hwf : OutWF G g)
    (rank : Nat → Nat) (hrank : RankedDag G g rank) :
    ∀ (vs : List Nat) (cs : List DFSColour) (s : List Event),
      cs.length = numVertices g →
      (∀ w, colAt cs w ≠ DFSColour.Grey) →
      (∀ v ∈ vs, v < numVertices g) →
      (∀ w, colAt cs w = DFSColour.Black → Event.finishVertex w ∈ s) →
      ∀ cs' s', dfsOuter g traceVisitor vs cs s = some (cs', s') →
        (∀ w, colAt cs' w = DFSColour.Black → Event.finishVertex w ∈ s') ∧
        (∀ w, colAt cs w = DFSColour.White → colAt cs' w = DFSColour.Black →
          ∀ e ∈ outEdges w g, finishedBefore s' e.tar w) := by
  intro vs
  induction vs with
  | nil =>
    intro cs s hlen hng hbd hsync cs' s' heqhyp
    have : some (cs, s) = some (cs', s') := by
      rw [← heqhyp]; rfl
    simp only [Option.some.injEq, Prod.mk.injEq] at this
    obtain ⟨hceq, hseq⟩ := this
    subst hceq
    subst hseq
    refine ⟨hsync, ?_⟩
    intro w hww hbw
    rw [hww] at hbw
    cases hbw
  | cons v vs ih =>
    intro cs s hlen hng hbd hsync cs' s' heqhyp
    have hvlt : v < numVertices g := hbd v (List.mem_cons_self v vs)
    by_cases hv : colAt cs v = DFSColour.White
    · have hcnt : cs.count DFSColour.White < numVertices g + 1 := by
        have := List.count_le_length DFSColour.White cs
        omega
      obtain ⟨cs1, t1, heq1, hph1, hbl1, hlt1⟩ :=
        (dfs_phase G g hwf (numVertices g + 1)).1 v cs
          (s ++ [Event.startVertex ⟨v⟩]) hlen hvlt hv hcnt
      obtain ⟨hlen1, htr1, _, _, _, _, _, _, _⟩ := hph1
      obtain ⟨hsync1, hnewb1⟩ :=
        (dfs_topo_phase G g hwf rank hrank (numVertices g + 1)).1 v cs
          (s ++ [Event.startVertex ⟨v⟩]) hlen hvlt hv hcnt
          (fun w hgw => absurd hgw (hng w))
          (fun w hbw => List.mem_append.mpr (Or.inl (hsync w hbw)))
          cs1 ((s ++ [Event.startVertex ⟨v⟩]) ++ t1) heq1
      have hng1 : ∀ w, colAt cs1 w ≠ DFSColour.Grey := by
        intro w
        rcases htr1 w with h | ⟨_, hb⟩
        · rw [h]; exact hng w
        · rw [hb]; intro hc; cases hc
      have heqc : dfsOuter g traceVisitor (v :: vs) cs s
          = dfsOuter g traceVisitor vs cs1 ((s ++ [Event.startVertex ⟨v⟩]) ++ t1) := by
        simp only [dfsOuter, traceVisitor]
        simp only [traceVisitor] at heq1
        rw [if_pos hv, heq1]
      rw [heqc] at heqhyp
      obtain ⟨hsyncO, hnewbO⟩ :=
        ih cs1 ((s ++ [Event.startVertex ⟨v⟩]) ++ t1) (hlen1.trans hlen) hng1
          (fun v' hv' => hbd v' (List.mem_cons_of_mem v hv'))
          (fun w hbw => hsync1 w hbw)
          cs' s' heqhyp
      refine ⟨hsyncO, ?_⟩
      intro w hww hbw
      cases hc1 : colAt cs1 w with
      | Black =>
        intro e he
        -- finished during this tree; s' extends the tree trace
        have hfb := hnewb1 w hww hc1 e he
        -- s' = tree-trace ++ rest: recover extension from the outer phase run
        obtain ⟨cs'', t'', heq'', _⟩ :=
          dfsOuter_phase G g hwf vs cs1 ((s ++ [Event.startVertex ⟨v⟩]) ++ t1)
            (hlen1.trans hlen) hng1
            (fun v' hv' => hbd v' (List.mem_cons_of_mem v hv'))
        rw [heq''] at heqhyp
        simp only [Option.some.injEq, Prod.mk.injEq] at heqhyp
        obtain ⟨hceq, hseq⟩ := heqhyp
        subst hceq
        subst hseq
        exact finishedBefore_append_right hfb
      | White =>
        exact hnewbO w hc1 hbw
      | Grey =>
        exact absurd hc1 (hng1 w)
    · have heqc : dfsOuter g traceVisitor (v :: vs) cs s
          = dfsOuter g traceVisitor vs cs s := by
        simp only [dfsOuter]
        rw [if_neg hv]
      rw [heqc] at heqhyp
      exact ih cs s hlen hng (fun v' hv' => hbd v' (List.mem_cons_of_mem v hv'))
        hsync cs' s' heqhyp

/-- Finish-time ordering over the whole dfs run: on a ranked (acyclic) in-bounds
graph, for every edge the target finishes strictly before the source. -/
theorem dfs_topo (G : Type) [Traits G] (g : G) (hwf : OutWF G g)
    (rank : Nat → Nat) (hrank : RankedDag G g rank) :
    ∀ T, dfs g traceVisitor [] = some T →
      ∀ u, u < numVertices g → ∀ e ∈ outEdges u g, finishedBefore T e.tar e.src := by
  intro T hT u hu e he
  obtain ⟨cs', t, heq, hlen', htr', hng', hbk', _, _, _, _, _, _⟩ :=
    dfsOuter_phase G g hwf (List.range (numVertices g))
      (List.replicate (numVertices g) DFSColour.White)
      ((List.range (numVertices g)).map (fun i => Event.initVertex ⟨i⟩))
      (by simp) (fun w => by rw [colAt_replicate_white]; intro h; cases h)
      (fun v hv => List.mem_range.mp hv)
  have hTfull : dfs g traceVisitor []
      = some ((List.range (numVertices g)).map (fun i => Event.initVertex ⟨i⟩) ++ t) := by
    simp only [dfs]
    rw [initFold_eq traceVisitor (List.range (numVertices g)) []]
    rw [foldEvents_trace]
    simp only [List.nil_append]
    rw [heq]
    rfl
  rw [hT] at hTfull
  simp only [Option.some.injEq] at hTfull
  obtain ⟨hsyncO, hnewbO⟩ :=
    dfsOuter_topo G g hwf rank hrank (List.range (numVertices g))
      (List.replicate (numVertices g) DFSColour.White)
      ((List.range (numVertices g)).map (fun i => Event.initVertex ⟨i⟩))
      (by simp) (fun w => by rw [colAt_replicate_white]; intro h; cases h)
      (fun v hv => List.mem_range.mp hv)
      (fun w hbw => by rw [colAt_replicate_white] at hbw; cases hbw)
      cs' ((List.range (numVertices g)).map (fun i => Event.initVertex ⟨i⟩) ++ t) heq
  have hsrc : e.src = u := (hwf u hu e he).1
  rw [hTfull, hsrc]
  exact hnewbO u (colAt_replicate_white _ _) (hbk' u (List.mem_range.mpr hu)) e he


theorem modifyAt_length {α : Type} (l : List α) (n : Nat) (f : α → α) :
    (modifyAt l n f).length = l.length := by
  induction l generalizing n with
  | nil => rfl
  | cons a l ih =>
    cases n with
    | zero => rfl
    | succ n => simp [modifyAt, ih]

theorem getElem?_modifyAt_self {α : Type} (l : List α) (n : Nat) (f : α → α) :
    (modifyAt l n f)[n]? = l[n]?.map f := by
  induction l generalizing n with
  | nil => cases n <;> rfl
  | cons a l ih =>
    cases n with
    | zero => simp [modifyAt]
    | succ n => simpa [modifyAt] using ih n

theorem getElem?_modifyAt_ne {α : Type} (l : List α) {m n : Nat} (f : α → α)
    (h : m ≠ n) : (modifyAt l n f)[m]? = l[m]? := by
  induction l generalizing m n with
  | nil => cases n <;> rfl
  | cons a l ih =>
    cases n with
    | zero =>
      cases m with
      | zero => exact absurd rfl h
      | succ m => simp [modifyAt]
    | succ n =>
      cases m with
      | zero => simp [modifyAt]
      | succ m => simpa [modifyAt] using ih (fun hh => h (by rw [hh]))

namespace AdjacencyList

variable {cat : DirectedCategory} {VProp EProp : Type}

theorem vertexEOut_pushEOut (idx : Nat) :
    ∀ {cat : DirectedCategory} (sv : StoredVertexType cat VProp),
      vertexEOut (pushEOut idx sv) = vertexEOut sv ++ [idx]
  | DirectedCategory.Directed, _ => rfl
  | DirectedCategory.Bidirectional, _ => rfl

theorem vertexEOut_default (cat : DirectedCategory) (VProp : Type) [Inhabited VProp] :
    vertexEOut (defaultStoredVertex cat VProp) = [] := by
  cases cat <;> rfl

theorem vertexEOut_ofProp (vp : VProp) :
    ∀ {cat : DirectedCategory},
      vertexEOut (@storedVertexOfProp cat _ vp) = ([] : List Nat)
  | DirectedCategory.Directed => rfl
  | DirectedCategory.Bidirectional => rfl

theorem eIn_pushEOut {VProp : Type} (idx : Nat)
    (sv : StoredVertexType DirectedCategory.Bidirectional VProp) :
    (pushEOut idx sv).eIn = sv.eIn := rfl

theorem vertexEOut_pushEIn {VProp : Type} (idx : Nat)
    (sv : StoredVertexType DirectedCategory.Bidirectional VProp) :
    vertexEOut (pushEIn idx sv) = vertexEOut sv := rfl

theorem eIn_pushEIn {VProp : Type} (idx : Nat)
    (sv : StoredVertexType DirectedCategory.Bidirectional VProp) :
    (pushEIn idx sv).eIn = sv.eIn ++ [idx] := rfl

theorem storedEdgeIdx_derefEdgeRef (g : AdjacencyList cat VProp EProp) (idx : Nat) :
    (derefEdgeRef g idx).storedEdgeIdx = idx := by
  unfold derefEdgeRef
  cases g.eList[idx]? <;> rfl

theorem mem_edges_idx_lt {g : AdjacencyList cat VProp EProp} {e : EdgeDescriptor}
    (h : e ∈ edges g) : e.storedEdgeIdx < numEdges g := by
  obtain ⟨i, hi, rfl⟩ := List.mem_map.mp h
  rw [storedEdgeIdx_derefEdgeRef]
  exact List.mem_range.mp hi

theorem edges_nodup (g : AdjacencyList cat VProp EProp) : (edges g).Nodup := by
  refine List.Nodup.map_on ?_ (List.nodup_range _)
  intro i _ j _ hij
  have := congrArg EdgeDescriptor.storedEdgeIdx hij
  rwa [storedEdgeIdx_derefEdgeRef, storedEdgeIdx_derefEdgeRef] at this

theorem eOutAt_out_of_range {g : AdjacencyList cat VProp EProp} {v : Nat}
    (h : numVertices g ≤ v) : eOutAt g v = [] := by
  unfold eOutAt
  rw [List.getElem?_eq_none h]
  rfl

theorem outEdges_out_of_range {g : AdjacencyList cat VProp EProp} {v : Nat}
    (h : numVertices g ≤ v) : outEdges v g = [] := by
  unfold outEdges
  rw [eOutAt_out_of_range h]
  rfl

theorem eInAt_out_of_range {VProp EProp : Type}
    {g : AdjacencyList DirectedCategory.Bidirectional VProp EProp} {v : Nat}
    (h : numVertices g ≤ v) : eInAt g v = [] := by
  unfold eInAt
  rw [List.getElem?_eq_none h]
  rfl

theorem inEdges_out_of_range {VProp EProp : Type}
    {g : AdjacencyList DirectedCategory.Bidirectional VProp EProp} {v : Nat}
    (h : numVertices g ≤ v) : inEdges v g = [] := by
  unfold inEdges
  rw [eInAt_out_of_range h]
  rfl

/-- On a consistent graph, graphs satisfy the bounds dfs needs: out-edges of a
live vertex cache it as source and a live vertex as target. -/
theorem WF.outWF {g : AdjacencyList cat VProp EProp} (h : WF g) :
    OutWF (AdjacencyList cat VProp EProp) g := by
  obtain ⟨hval, _, hchar⟩ := h
  intro u hu e he
  have he' : e ∈ (edges g).filter (fun e => e.src = u) := by
    rw [← hchar u hu]
    exact he
  obtain ⟨hmem, hsrc⟩ := List.mem_filter.mp he'
  exact ⟨by simpa using hsrc, (hval e hmem).2⟩

end AdjacencyList

namespace AdjacencyList

variable {cat : DirectedCategory} {VProp EProp : Type}

theorem eList_addEdgeAux (v u : Nat) (ep : EProp)
    (g : AdjacencyList cat VProp EProp) :
    (addEdgeAux v u ep g).eList = g.eList ++ [⟨v, u, ep⟩] := rfl

theorem vList_addEdgeAux (v u : Nat) (ep : EProp)
    (g : AdjacencyList cat VProp EProp) :
    (addEdgeAux v u ep g).vList = modifyAt g.vList v (pushEOut (numEdges g)) := rfl

theorem numVertices_addEdgeAux (v u : Nat) (ep : EProp)
    (g : AdjacencyList cat VProp EProp) :
    numVertices (addEdgeAux v u ep g) = numVertices g := by
  unfold numVertices
  rw [vList_addEdgeAux]
  exact modifyAt_length _ _ _

theorem numEdges_addEdgeAux (v u : Nat) (ep : EProp)
    (g : AdjacencyList cat VProp EProp) :
    numEdges (addEdgeAux v u ep g) = numEdges g + 1 := by
  unfold numEdges
  rw [eList_addEdgeAux]
  simp [numEdges]

theorem derefEdgeRef_addEdgeAux_lt {v u : Nat} {ep : EProp}
    {g : AdjacencyList cat VProp EProp} {i : Nat} (h : i < numEdges g) :
    derefEdgeRef (addEdgeAux v u ep g) i = derefEdgeRef g i := by
  unfold derefEdgeRef
  rw [eList_addEdgeAux, List.getElem?_append_left h]

theorem derefEdgeRef_addEdgeAux_last (v u : Nat) (ep : EProp)
    (g : AdjacencyList cat VProp EProp) :
    derefEdgeRef (addEdgeAux v u ep g) (numEdges g)
      = ⟨v, u, numEdges g⟩ := by
  unfold derefEdgeRef
  have hlen : numEdges g = g.eList.length := rfl
  rw [eList_addEdgeAux, hlen, List.getElem?_append_right (Nat.le.refl)]
  simp

theorem edges_addEdgeAux (v u : Nat) (ep : EProp)
    (g : AdjacencyList cat VProp EProp) :
    edges (addEdgeAux v u ep g) = edges g ++ [⟨v, u, numEdges g⟩] := by
  unfold edges
  rw [numEdges_addEdgeAux, List.range_succ, List.map_append]
  congr 1
  · exact List.map_congr_left (fun i hi =>
      derefEdgeRef_addEdgeAux_lt (List.mem_range.mp hi))
  · simp [derefEdgeRef_addEdgeAux_last]

theorem eOutAt_addEdgeAux_self {v : Nat} (u : Nat) (ep : EProp)
    {g : AdjacencyList cat VProp EProp} (hv : v < numVertices g) :
    eOutAt (addEdgeAux v u ep g) v = eOutAt g v ++ [numEdges g] := by
  unfold eOutAt
  rw [vList_addEdgeAux, getElem?_modifyAt_self]
  have h1 : g.vList[v]? = some g.vList[v] := List.getElem?_eq_getElem hv
  rw [h1]
  simp [vertexEOut_pushEOut]

theorem eOutAt_addEdgeAux_ne {v : Nat} (u : Nat) (ep : EProp)
    {g : AdjacencyList cat VProp EProp} {w : Nat} (hw : w ≠ v) :
    eOutAt (addEdgeAux v u ep g) w = eOutAt g w := by
  unfold eOutAt
  rw [vList_addEdgeAux, getElem?_modifyAt_ne _ _ hw]

theorem outEdges_addEdgeAux_self {v : Nat} (u : Nat) (ep : EProp)
    {g : AdjacencyList cat VProp EProp} (hwf : WF g) (hv : v < numVertices g) :
    outEdges v (addEdgeAux v u ep g) = outEdges v g ++ [⟨v, u, numEdges g⟩] := by
  unfold outEdges
  rw [eOutAt_addEdgeAux_self u ep hv, List.map_append]
  congr 1
  · exact List.map_congr_left (fun i hi =>
      derefEdgeRef_addEdgeAux_lt (hwf.2.1 v hv i hi))
  · simp [derefEdgeRef_addEdgeAux_last]

theorem outEdges_addEdgeAux_ne {v : Nat} (u : Nat) (ep : EProp)
    {g : AdjacencyList cat VProp EProp} (hwf : WF g) {w : Nat} (hw : w ≠ v) :
    outEdges w (addEdgeAux v u ep g) = outEdges w g := by
  by_cases hwn : w < numVertices g
  · unfold outEdges
    rw [eOutAt_addEdgeAux_ne u ep hw]
    exact List.map_congr_left (fun i hi =>
      derefEdgeRef_addEdgeAux_lt (hwf.2.1 w hwn i hi))
  · rw [outEdges_out_of_range (Nat.le_of_not_lt hwn), outEdges_out_of_range]
    rw [numVertices_addEdgeAux]
    exact Nat.le_of_not_lt hwn

theorem WF_addEdgeAux {v u : Nat} (ep : EProp)
    {g : AdjacencyList cat VProp EProp} (hwf : WF g)
    (hv : v < numVertices g) (hu : u < numVertices g) :
    WF (addEdgeAux v u ep g) := by
  refine ⟨?_, ?_, ?_⟩
  · intro e he
    rw [edges_addEdgeAux] at he
    rw [numVertices_addEdgeAux]
    rcases List.mem_append.mp he with h | h
    · exact hwf.1 e h
    · rw [List.mem_singleton.mp h]
      exact ⟨hv, hu⟩
  · intro w hwn i hi
    rw [numVertices_addEdgeAux] at hwn
    rw [numEdges_addEdgeAux]
    by_cases hwv : w = v
    · rw [hwv, eOutAt_addEdgeAux_self u ep hv] at hi
      rcases List.mem_append.mp hi with h | h
      · exact Nat.lt_succ_of_lt (hwf.2.1 v hv i h)
      · rw [List.mem_singleton.mp h]
        exact Nat.lt_succ_self _
    · rw [eOutAt_addEdgeAux_ne u ep hwv] at hi
      exact Nat.lt_succ_of_lt (hwf.2.1 w hwn i hi)
  · intro w hwn
    rw [numVertices_addEdgeAux] at hwn
    rw [edges_addEdgeAux, List.filter_append]
    by_cases hwv : w = v
    · subst hwv
      rw [outEdges_addEdgeAux_self u ep hwf hv, hwf.2.2 w hwn]
      simp
    · rw [outEdges_addEdgeAux_ne u ep hwf hwv, hwf.2.2 w hwn]
      have hne : ¬((⟨v, u, numEdges g⟩ : EdgeDescriptor).src = w) := by
        simp
        exact fun hh => hwv hh.symm
      simp [hne]

end AdjacencyList

namespace AdjacencyList

variable {cat : DirectedCategory} {VProp EProp : Type}

theorem eList_addEdgeAuxB {VProp EProp : Type} (v u : Nat) (ep : EProp)
    (g : AdjacencyList DirectedCategory.Bidirectional VProp EProp) :
    (addEdgeAuxB v u ep g).eList = g.eList ++ [⟨v, u, ep⟩] := rfl

theorem vList_addEdgeAuxB {VProp EProp : Type} (v u : Nat) (ep : EProp)
    (g : AdjacencyList DirectedCategory.Bidirectional VProp EProp) :
    (addEdgeAuxB v u ep g).vList
      = modifyAt (addEdgeAux v u ep g).vList u (pushEIn (numEdges g)) := rfl

theorem numVertices_addEdgeAuxB (v u : Nat) (ep : EProp)
    (g : AdjacencyList DirectedCategory.Bidirectional VProp EProp) :
    numVertices (addEdgeAuxB v u ep g) = numVertices g := by
  unfold numVertices
  rw [vList_addEdgeAuxB, modifyAt_length]
  exact numVertices_addEdgeAux v u ep g

theorem numEdges_addEdgeAuxB (v u : Nat) (ep : EProp)
    (g : AdjacencyList DirectedCategory.Bidirectional VProp EProp) :
    numEdges (addEdgeAuxB v u ep g) = numEdges g + 1 :=
  numEdges_addEdgeAux v u ep g

theorem derefEdgeRef_addEdgeAuxB (v u : Nat) (ep : EProp)
    (g : AdjacencyList DirectedCategory.Bidirectional VProp EProp) (i : Nat) :
    derefEdgeRef (addEdgeAuxB v u ep g) i = derefEdgeRef (addEdgeAux v u ep g) i := rfl

theorem edges_addEdgeAuxB (v u : Nat) (ep : EProp)
    (g : AdjacencyList DirectedCategory.Bidirectional VProp EProp) :
    edges (addEdgeAuxB v u ep g) = edges g ++ [⟨v, u, numEdges g⟩] :=
  edges_addEdgeAux v u ep g

theorem eOutAt_addEdgeAuxB (v u : Nat) (ep : EProp)
    (g : AdjacencyList DirectedCategory.Bidirectional VProp EProp) (w : Nat) :
    eOutAt (addEdgeAuxB v u ep g) w = eOutAt (addEdgeAux v u ep g) w := by
  unfold eOutAt
  rw [vList_addEdgeAuxB]
  by_cases hwu : w = u
  · subst hwu
    rw [getElem?_modifyAt_self]
    rcases hvv : (addEdgeAux v w ep g).vList[w]? with _ | sv
    · simp [hvv]
    · simp [hvv, vertexEOut_pushEIn]
  · rw [getElem?_modifyAt_ne _ _ hwu]

theorem outEdges_addEdgeAuxB (v u : Nat) (ep : EProp)
    (g : AdjacencyList DirectedCategory.Bidirectional VProp EProp) (w : Nat) :
    outEdges w (addEdgeAuxB v u ep g) = outEdges w (addEdgeAux v u ep g) := by
  unfold outEdges
  rw [eOutAt_addEdgeAuxB]
  rfl

theorem WF_addEdgeAuxB {VProp EProp : Type} {v u : Nat} (ep : EProp)
    {g : AdjacencyList DirectedCategory.Bidirectional VProp EProp} (hwf : WF g)
    (hv : v < numVertices g) (hu : u < numVertices g) :
    WF (addEdgeAuxB v u ep g) := by
  obtain ⟨hval, hbnd, hchar⟩ := WF_addEdgeAux ep hwf hv hu
  refine ⟨?_, ?_, ?_⟩
  · intro e he
    rw [edges_addEdgeAuxB] at he
    rw [numVertices_addEdgeAuxB]
    rw [edges_addEdgeAux] at hval
    have := hval e (by rwa [])
    rwa [numVertices_addEdgeAux] at this
  · intro w hwn i hi
    rw [numVertices_addEdgeAuxB] at hwn
    rw [numEdges_addEdgeAuxB]
    rw [eOutAt_addEdgeAuxB] at hi
    have := hbnd w (by rwa [numVertices_addEdgeAux]) i hi
    rwa [numEdges_addEdgeAux] at this
  · intro w hwn
    rw [numVertices_addEdgeAuxB] at hwn
    rw [outEdges_addEdgeAuxB]
    have := hchar w (by rwa [numVertices_addEdgeAux])
    rw [this, edges_addEdgeAuxB, edges_addEdgeAux]

theorem eIn_getElem?_addEdgeAux {VProp EProp : Type} (v u : Nat) (ep : EProp)
    (g : AdjacencyList DirectedCategory.Bidirectional VProp EProp) (w : Nat) :
    ((addEdgeAux v u ep g).vList[w]?).map StoredVertexInOut.eIn
      = (g.vList[w]?).map StoredVertexInOut.eIn := by
  rw [vList_addEdgeAux]
  by_cases hwv : w = v
  · subst hwv
    rw [getElem?_modifyAt_self]
    cases g.vList[w]? <;> simp [eIn_pushEOut]
  · rw [getElem?_modifyAt_ne _ _ hwv]

theorem eInAt_addEdgeAux {VProp EProp : Type} (v u : Nat) (ep : EProp)
    (g : AdjacencyList DirectedCategory.Bidirectional VProp EProp) (w : Nat) :
    eInAt (addEdgeAux v u ep g) w = eInAt g w := by
  unfold eInAt
  rw [eIn_getElem?_addEdgeAux]

theorem eInAt_addEdgeAuxB_self {VProp EProp : Type} (v : Nat) {u : Nat} (ep : EProp)
    {g : AdjacencyList DirectedCategory.Bidirectional VProp EProp}
    (hu : u < numVertices g) :
    eInAt (addEdgeAuxB v u ep g) u = eInAt g u ++ [numEdges g] := by
  have hlt : u < (addEdgeAux v u ep g).vList.length := by
    rw [vList_addEdgeAux, modifyAt_length]
    exact hu
  obtain ⟨sv, hsv⟩ : ∃ sv, (addEdgeAux v u ep g).vList[u]? = some sv :=
    ⟨_, List.getElem?_eq_getElem hlt⟩
  unfold eInAt
  rw [vList_addEdgeAuxB, getElem?_modifyAt_self, hsv]
  have hsv2 := eIn_getElem?_addEdgeAux v u ep g u
  rw [hsv] at hsv2
  simp only [Option.map_some'] at hsv2 ⊢
  simp [eIn_pushEIn]
  rw [← hsv2]
  rfl

theorem eInAt_addEdgeAuxB_ne {VProp EProp : Type} (v : Nat) {u : Nat} (ep : EProp)
    (g : AdjacencyList DirectedCategory.Bidirectional VProp EProp) {w : Nat}
    (hw : w ≠ u) :
    eInAt (addEdgeAuxB v u ep g) w = eInAt g w := by
  unfold eInAt
  rw [vList_addEdgeAuxB, getElem?_modifyAt_ne _ _ hw]
  exact eInAt_addEdgeAux v u ep g w

theorem inEdges_addEdgeAuxB_self {VProp EProp : Type} (v : Nat) {u : Nat} (ep : EProp)
    {g : AdjacencyList DirectedCategory.Bidirectional VProp EProp}
    (hwfin : WFin g) (hu : u < numVertices g) :
    inEdges u (addEdgeAuxB v u ep g) = inEdges u g ++ [⟨v, u, numEdges g⟩] := by
  unfold inEdges
  rw [eInAt_addEdgeAuxB_self v ep hu, List.map_append]
  congr 1
  · refine List.map_congr_left (fun i hi => ?_)
    rw [derefEdgeRef_addEdgeAuxB]
    exact derefEdgeRef_addEdgeAux_lt (hwfin.1 u hu i hi)
  · simp
    rw [derefEdgeRef_addEdgeAuxB]
    exact derefEdgeRef_addEdgeAux_last v u ep g

theorem inEdges_addEdgeAuxB_ne {VProp EProp : Type} (v : Nat) {u : Nat} (ep : EProp)
    {g : AdjacencyList DirectedCategory.Bidirectional VProp EProp}
    (hwfin : WFin g) {w : Nat} (hw : w ≠ u) :
    inEdges w (addEdgeAuxB v u ep g) = inEdges w g := by
  by_cases hwn : w < numVertices g
  · unfold inEdges
    rw [eInAt_addEdgeAuxB_ne v ep g hw]
    refine List.map_congr_left (fun i hi => ?_)
    rw [derefEdgeRef_addEdgeAuxB]
    exact derefEdgeRef_addEdgeAux_lt (hwfin.1 w hwn i hi)
  · rw [inEdges_out_of_range (Nat.le_of_not_lt hwn), inEdges_out_of_range]
    rw [numVertices_addEdgeAuxB]
    exact Nat.le_of_not_lt hwn

theorem WFin_addEdgeAuxB {VProp EProp : Type} {v u : Nat} (ep : EProp)
    {g : AdjacencyList DirectedCategory.Bidirectional VProp EProp}
    (hwfin : WFin g) (hu : u < numVertices g) :
    WFin (addEdgeAuxB v u ep g) := by
  refine ⟨?_, ?_⟩
  · intro w hwn i hi
    rw [numVertices_addEdgeAuxB] at hwn
    rw [numEdges_addEdgeAuxB]
    by_cases hwu : w = u
    · rw [hwu, eInAt_addEdgeAuxB_self v ep hu] at hi
      rcases List.mem_append.mp hi with h | h
      · exact Nat.lt_succ_of_lt (hwfin.1 u hu i h)
      · rw [List.mem_singleton.mp h]
        exact Nat.lt_succ_self _
    · rw [eInAt_addEdgeAuxB_ne v ep g hwu] at hi
      exact Nat.lt_succ_of_lt (hwfin.1 w hwn i hi)
  · intro w hwn
    rw [numVertices_addEdgeAuxB] at hwn
    rw [edges_addEdgeAuxB, List.filter_append]
    by_cases hwu : w = u
    · subst hwu
      rw [inEdges_addEdgeAuxB_self v ep hwfin hu, hwfin.2 w hwn]
      simp
    · rw [inEdges_addEdgeAuxB_ne v ep hwfin hwu, hwfin.2 w hwn]
      have hne : ¬((⟨v, u, numEdges g⟩ : EdgeDescriptor).tar = w) := by
        simp
        exact fun hh => hwu hh.symm
      simp [hne]

end AdjacencyList

namespace AdjacencyList

variable {cat : DirectedCategory} {VProp EProp : Type}

theorem vertexVProp_default (cat : DirectedCategory) (VProp : Type) [Inhabited VProp] :
    vertexVProp (defaultStoredVertex cat VProp) = (default : VProp) := by
  cases cat <;> rfl

theorem vertexVProp_ofProp (vp : VProp) :
    ∀ {cat : DirectedCategory},
      vertexVProp (@storedVertexOfProp cat _ vp) = vp
  | DirectedCategory.Directed => rfl
  | DirectedCategory.Bidirectional => rfl

theorem WF_empty : WF (emptyGraph cat VProp EProp) := by
  refine ⟨?_, ?_, ?_⟩
  · intro e he
    simp [emptyGraph, edges, numEdges] at he
  · intro v hv
    simp [emptyGraph, numVertices] at hv
  · intro v hv
    simp [emptyGraph, numVertices] at hv

theorem WFin_empty {VProp EProp : Type} :
    WFin (emptyGraph DirectedCategory.Bidirectional VProp EProp) := by
  refine ⟨?_, ?_⟩ <;> intro v hv <;> simp [emptyGraph, numVertices] at hv

theorem addVertex_fst [Inhabited VProp] (g : AdjacencyList cat VProp EProp) :
    (addVertex g).1 = numVertices g := rfl

theorem addVertexProp_fst (vp : VProp) (g : AdjacencyList cat VProp EProp) :
    (addVertexProp vp g).1 = numVertices g := rfl

theorem numVertices_addVertex [Inhabited VProp] (g : AdjacencyList cat VProp EProp) :
    numVertices (addVertex g).2 = numVertices g + 1 := by
  simp [addVertex, numVertices]

theorem numVertices_addVertexProp (vp : VProp) (g : AdjacencyList cat VProp EProp) :
    numVertices (addVertexProp vp g).2 = numVertices g + 1 := by
  simp [addVertexProp, numVertices]

theorem edges_addVertex [Inhabited VProp] (g : AdjacencyList cat VProp EProp) :
    edges (addVertex g).2 = edges g := rfl

theorem edges_addVertexProp (vp : VProp) (g : AdjacencyList cat VProp EProp) :
    edges (addVertexProp vp g).2 = edges g := rfl

theorem eOutAt_addVertex [Inhabited VProp] (g : AdjacencyList cat VProp EProp)
    (w : Nat) : eOutAt (addVertex g).2 w = eOutAt g w := by
  unfold eOutAt
  have hv : (addVertex g).2.vList = g.vList ++ [defaultStoredVertex cat VProp] := rfl
  rw [hv]
  rcases Nat.lt_trichotomy w g.vList.length with h | h | h
  · rw [List.getElem?_append_left h]
  · rw [h]
    have h2 : g.vList[g.vList.length]? = (none : Option _) :=
      List.getElem?_eq_none (Nat.le.refl)
    rw [h2, List.getElem?_append_right (Nat.le.refl)]
    simp [vertexEOut_default]
  · have h2 : (g.vList ++ [defaultStoredVertex cat VProp])[w]? = none :=
      List.getElem?_eq_none (by simp; omega)
    have h3 : g.vList[w]? = none := List.getElem?_eq_none (by omega)
    rw [h2, h3]

theorem eOutAt_addVertexProp (vp : VProp) (g : AdjacencyList cat VProp EProp)
    (w : Nat) : eOutAt (addVertexProp vp g).2 w = eOutAt g w := by
  unfold eOutAt
  have hv : (addVertexProp vp g).2.vList = g.vList ++ [storedVertexOfProp vp] := rfl
  rw [hv]
  rcases Nat.lt_trichotomy w g.vList.length with h | h | h
  · rw [List.getElem?_append_left h]
  · rw [h]
    have h2 : g.vList[g.vList.length]? = (none : Option _) :=
      List.getElem?_eq_none (Nat.le.refl)
    rw [h2, List.getElem?_append_right (Nat.le.refl)]
    simp [vertexEOut_ofProp]
  · have h2 : (g.vList ++ [storedVertexOfProp vp])[w]? = none :=
      List.getElem?_eq_none (by simp; omega)
    have h3 : g.vList[w]? = none := List.getElem?_eq_none (by omega)
    rw [h2, h3]

theorem outEdges_addVertex [Inhabited VProp] (g : AdjacencyList cat VProp EProp)
    (w : Nat) : outEdges w (addVertex g).2 = outEdges w g := by
  unfold outEdges
  rw [eOutAt_addVertex]
  rfl

theorem outEdges_addVertexProp (vp : VProp) (g : AdjacencyList cat VProp EProp)
    (w : Nat) : outEdges w (addVertexProp vp g).2 = outEdges w g := by
  unfold outEdges
  rw [eOutAt_addVertexProp]
  rfl

theorem mem_edges_src_lt {g : AdjacencyList cat VProp EProp} (hwf : WF g) :
    ∀ e ∈ edges g, e.src < numVertices g :=
  fun e he => (hwf.1 e he).1

theorem WF_addVertex [Inhabited VProp] {g : AdjacencyList cat VProp EProp}
    (hwf : WF g) : WF (addVertex g).2 := by
  refine ⟨?_, ?_, ?_⟩
  · intro e he
    rw [edges_addVertex] at he
    rw [numVertices_addVertex]
    obtain ⟨h1, h2⟩ := hwf.1 e he
    omega
  · intro w hwn i hi
    rw [eOutAt_addVertex] at hi
    rw [numVertices_addVertex] at hwn
    by_cases h : w < numVertices g
    · exact hwf.2.1 w h i hi
    · rw [eOutAt_out_of_range (Nat.le_of_not_lt h)] at hi
      cases hi
  · intro w hwn
    rw [numVertices_addVertex] at hwn
    rw [outEdges_addVertex, edges_addVertex]
    by_cases h : w < numVertices g
    · exact hwf.2.2 w h
    · have hw : w = numVertices g := by omega
      rw [outEdges_out_of_range (Nat.le_of_not_lt h)]
      refine (List.filter_eq_nil_iff.mpr ?_).symm
      intro e he
      simp
      have := (hwf.1 e he).1
      omega

theorem WF_addVertexProp {vp : VProp} {g : AdjacencyList cat VProp EProp}
    (hwf : WF g) : WF (addVertexProp vp g).2 := by
  refine ⟨?_, ?_, ?_⟩
  · intro e he
    rw [edges_addVertexProp] at he
    rw [numVertices_addVertexProp]
    obtain ⟨h1, h2⟩ := hwf.1 e he
    omega
  · intro w hwn i hi
    rw [eOutAt_addVertexProp] at hi
    by_cases h : w < numVertices g
    · exact hwf.2.1 w h i hi
    · rw [eOutAt_out_of_range (Nat.le_of_not_lt h)] at hi
      cases hi
  · intro w hwn
    rw [numVertices_addVertexProp] at hwn
    rw [outEdges_addVertexProp, edges_addVertexProp]
    by_cases h : w < numVertices g
    · exact hwf.2.2 w h
    · rw [outEdges_out_of_range (Nat.le_of_not_lt h)]
      refine (List.filter_eq_nil_iff.mpr ?_).symm
      intro e he
      simp
      have := (hwf.1 e he).1
      omega

theorem eInAt_addVertex {VProp EProp : Type} [Inhabited VProp]
    (g : AdjacencyList DirectedCategory.Bidirectional VProp EProp) (w : Nat) :
    eInAt (addVertex g).2 w = eInAt g w := by
  unfold eInAt
  have hv : (addVertex g).2.vList
      = g.vList ++ [defaultStoredVertex DirectedCategory.Bidirectional VProp] := rfl
  rw [hv]
  rcases Nat.lt_trichotomy w g.vList.length with h | h | h
  · rw [List.getElem?_append_left h]
  · rw [h]
    have h2 : g.vList[g.vList.length]? = (none : Option _) :=
      List.getElem?_eq_none (Nat.le.refl)
    rw [h2, List.getElem?_append_right (Nat.le.refl)]
    simp [defaultStoredVertex]
  · have h2 : (g.vList ++ [defaultStoredVertex DirectedCategory.Bidirectional VProp])[w]? = none :=
      List.getElem?_eq_none (by simp; omega)
    have h3 : g.vList[w]? = none := List.getElem?_eq_none (by omega)
    rw [h2, h3]

theorem eInAt_addVertexProp {VProp EProp : Type} (vp : VProp)
    (g : AdjacencyList DirectedCategory.Bidirectional VProp EProp) (w : Nat) :
    eInAt (addVertexProp vp g).2 w = eInAt g w := by
  unfold eInAt
  have hv : (addVertexProp vp g).2.vList
      = g.vList ++ [storedVertexOfProp vp] := rfl
  rw [hv]
  rcases Nat.lt_trichotomy w g.vList.length with h | h | h
  · rw [List.getElem?_append_left h]
  · rw [h]
    have h2 : g.vList[g.vList.length]? = (none : Option _) :=
      List.getElem?_eq_none (Nat.le.refl)
    rw [h2, List.getElem?_append_right (Nat.le.refl)]
    simp [storedVertexOfProp]
  · have h2 : (g.vList ++ [storedVertexOfProp vp])[w]? = none :=
      List.getElem?_eq_none (by simp; omega)
    have h3 : g.vList[w]? = none := List.getElem?_eq_none (by omega)
    rw [h2, h3]

theorem inEdges_addVertex {VProp EProp : Type} [Inhabited VProp]
    (g : AdjacencyList DirectedCategory.Bidirectional VProp EProp) (w : Nat) :
    inEdges w (addVertex g).2 = inEdges w g := by
  unfold inEdges
  rw [eInAt_addVertex]
  rfl

theorem inEdges_addVertexProp {VProp EProp : Type} (vp : VProp)
    (g : AdjacencyList DirectedCategory.Bidirectional VProp EProp) (w : Nat) :
    inEdges w (addVertexProp vp g).2 = inEdges w g := by
  unfold inEdges
  rw [eInAt_addVertexProp]
  rfl

theorem WFin_addVertex {VProp EProp : Type} [Inhabited VProp]
    {g : AdjacencyList DirectedCategory.Bidirectional VProp EProp}
    (hwf : WF g) (hwfin : WFin g) : WFin (addVertex g).2 := by
  refine ⟨?_, ?_⟩
  · intro w hwn i hi
    rw [eInAt_addVertex] at hi
    by_cases h : w < numVertices g
    · exact hwfin.1 w h i hi
    · rw [eInAt_out_of_range (Nat.le_of_not_lt h)] at hi
      cases hi
  · intro w hwn
    rw [numVertices_addVertex] at hwn
    rw [inEdges_addVertex, edges_addVertex]
    by_cases h : w < numVertices g
    · exact hwfin.2 w h
    · rw [inEdges_out_of_range (Nat.le_of_not_lt h)]
      refine (List.filter_eq_nil_iff.mpr ?_).symm
      intro e he
      simp
      have := (hwf.1 e he).2
      omega

theorem WFin_addVertexProp {VProp EProp : Type} {vp : VProp}
    {g : AdjacencyList DirectedCategory.Bidirectional VProp EProp}
    (hwf : WF g) (hwfin : WFin g) : WFin (addVertexProp vp g).2 := by
  refine ⟨?_, ?_⟩
  · intro w hwn i hi
    rw [eInAt_addVertexProp] at hi
    by_cases h : w < numVertices g
    · exact hwfin.1 w h i hi
    · rw [eInAt_out_of_range (Nat.le_of_not_lt h)] at hi
      cases hi
  · intro w hwn
    rw [numVertices_addVertexProp] at hwn
    rw [inEdges_addVertexProp, edges_addVertexProp]
    by_cases h : w < numVertices g
    · exact hwfin.2 w h
    · rw [inEdges_out_of_range (Nat.le_of_not_lt h)]
      refine (List.filter_eq_nil_iff.mpr ?_).symm
      intro e he
      simp
      have := (hwf.1 e he).2
      omega

theorem addEdge_eq [Inhabited EProp] (v u : Nat)
    (g : AdjacencyList DirectedCategory.Directed VProp EProp) :
    addEdge v u g = (⟨v, u, numEdges g⟩, addEdgeAux v u default g) := rfl

theorem addEdgeProp_eq (v u : Nat) (ep : EProp)
    (g : AdjacencyList DirectedCategory.Directed VProp EProp) :
    addEdgeProp v u ep g = (⟨v, u, numEdges g⟩, addEdgeAux v u ep g) := rfl

theorem addEdgeB_eq {VProp EProp : Type} [Inhabited EProp] (v u : Nat)
    (g : AdjacencyList DirectedCategory.Bidirectional VProp EProp) :
    addEdgeB v u g = (⟨v, u, numEdges g⟩, addEdgeAuxB v u default g) := rfl

theorem addEdgeBProp_eq {VProp EProp : Type} (v u : Nat) (ep : EProp)
    (g : AdjacencyList DirectedCategory.Bidirectional VProp EProp) :
    addEdgeBProp v u ep g = (⟨v, u, numEdges g⟩, addEdgeAuxB v u ep g) := rfl

end AdjacencyList

namespace AdjacencyList

variable {cat : DirectedCategory} {VProp EProp : Type}

theorem outEdges_src {g : AdjacencyList cat VProp EProp} (hwf : WF g) (w : Nat) :
    ∀ e ∈ outEdges w g, e.src = w := by
  intro e he
  by_cases h : w < numVertices g
  · rw [hwf.2.2 w h] at he
    have := (List.mem_filter.mp he).2
    simpa using this
  · rw [outEdges_out_of_range (Nat.le_of_not_lt h)] at he
    cases he

theorem inEdges_tar {VProp EProp : Type}
    {g : AdjacencyList DirectedCategory.Bidirectional VProp EProp}
    (hwfin : WFin g) (w : Nat) :
    ∀ e ∈ inEdges w g, e.tar = w := by
  intro e he
  by_cases h : w < numVertices g
  · rw [hwfin.2 w h] at he
    have := (List.mem_filter.mp he).2
    simpa using this
  · rw [inEdges_out_of_range (Nat.le_of_not_lt h)] at he
    cases he

theorem outEdges_nodup {g : AdjacencyList cat VProp EProp} (hwf : WF g)
    {w : Nat} (h : w < numVertices g) : (outEdges w g).Nodup := by
  rw [hwf.2.2 w h]
  exact (edges_nodup g).filter _

theorem inEdges_nodup {VProp EProp : Type}
    {g : AdjacencyList DirectedCategory.Bidirectional VProp EProp}
    (hwfin : WFin g) {w : Nat} (h : w < numVertices g) : (inEdges w g).Nodup := by
  rw [hwfin.2 w h]
  exact (edges_nodup g).filter _

theorem count_outEdges_eq_one {g : AdjacencyList cat VProp EProp} (hwf : WF g)
    {w : Nat} (h : w < numVertices g) {e : EdgeDescriptor}
    (he : e ∈ outEdges w g) : (outEdges w g).count e = 1 :=
  List.count_eq_one_of_mem (outEdges_nodup hwf h) he

theorem count_inEdges_eq_one {VProp EProp : Type}
    {g : AdjacencyList DirectedCategory.Bidirectional VProp EProp}
    (hwfin : WFin g) {w : Nat} (h : w < numVertices g) {e : EdgeDescriptor}
    (he : e ∈ inEdges w g) : (inEdges w g).count e = 1 :=
  List.count_eq_one_of_mem (inEdges_nodup hwfin h) he

theorem not_mem_outEdges {g : AdjacencyList cat VProp EProp} (hwf : WF g)
    {w : Nat} {e : EdgeDescriptor} (h : e.src ≠ w) : e ∉ outEdges w g := by
  intro hmem
  exact h (outEdges_src hwf w e hmem)

theorem not_mem_inEdges {VProp EProp : Type}
    {g : AdjacencyList DirectedCategory.Bidirectional VProp EProp}
    (hwfin : WFin g) {w : Nat} {e : EdgeDescriptor} (h : e.tar ≠ w) :
    e ∉ inEdges w g := by
  intro hmem
  exact h (inEdges_tar hwfin w e hmem)

theorem outDegree_eq_length (v : Nat) (g : AdjacencyList cat VProp EProp) :
    outDegree v g = (outEdges v g).length := rfl

theorem inDegree_eq_length {VProp EProp : Type} (v : Nat)
    (g : AdjacencyList DirectedCategory.Bidirectional VProp EProp) :
    inDegree v g = (inEdges v g).length := rfl

theorem iterAddVertex_spec [Inhabited VProp] :
    ∀ (n : Nat) (g : AdjacencyList cat VProp EProp),
      (iterAddVertex n g).2 = (List.range n).map (fun k => numVertices g + k) ∧
      numVertices (iterAddVertex n g).1 = numVertices g + n := by
  intro n
  induction n with
  | zero => intro g; exact ⟨rfl, rfl⟩
  | succ n ih =>
    intro g
    obtain ⟨h1, h2⟩ := ih (addVertex g).2
    constructor
    · show (addVertex g).1 :: (iterAddVertex n (addVertex g).2).2 = _
      rw [h1, addVertex_fst, numVertices_addVertex, List.range_succ_eq_map]
      simp [List.map_map]
      intro a _
      omega
    · show numVertices (iterAddVertex n (addVertex g).2).1 = _
      rw [h2, numVertices_addVertex]
      omega

theorem vertexProp_addVertexProp (vp : VProp) (g : AdjacencyList cat VProp EProp) :
    vertexProp (addVertexProp vp g).2 (addVertexProp vp g).1 = some vp := by
  unfold vertexProp getIndex
  have hv : (addVertexProp vp g).2.vList = g.vList ++ [storedVertexOfProp vp] := rfl
  have hd : (addVertexProp vp g).1 = g.vList.length := rfl
  rw [hv, hd, List.getElem?_append_right (Nat.le.refl)]
  simp [vertexVProp_ofProp]

theorem vertexProp_addVertex [Inhabited VProp] (g : AdjacencyList cat VProp EProp) :
    vertexProp (addVertex g).2 (addVertex g).1 = some (default : VProp) := by
  unfold vertexProp getIndex
  have hv : (addVertex g).2.vList = g.vList ++ [defaultStoredVertex cat VProp] := rfl
  have hd : (addVertex g).1 = g.vList.length := rfl
  rw [hv, hd, List.getElem?_append_right (Nat.le.refl)]
  simp [vertexVProp_default]

theorem edgeProp_addEdgeProp (v u : Nat) (ep : EProp)
    (g : AdjacencyList DirectedCategory.Directed VProp EProp) :
    edgeProp (addEdgeProp v u ep g).2 (addEdgeProp v u ep g).1 = some ep := by
  unfold edgeProp
  have he : (addEdgeProp v u ep g).2.eList = g.eList ++ [⟨v, u, ep⟩] := rfl
  have hd : (addEdgeProp v u ep g).1.storedEdgeIdx = g.eList.length := rfl
  rw [he, hd, List.getElem?_append_right (Nat.le.refl)]
  simp

theorem edgeProp_addEdgeBProp {VProp EProp : Type} (v u : Nat) (ep : EProp)
    (g : AdjacencyList DirectedCategory.Bidirectional VProp EProp) :
    edgeProp (addEdgeBProp v u ep g).2 (addEdgeBProp v u ep g).1 = some ep := by
  unfold edgeProp
  have he : (addEdgeBProp v u ep g).2.eList = g.eList ++ [⟨v, u, ep⟩] := rfl
  have hd : (addEdgeBProp v u ep g).1.storedEdgeIdx = g.eList.length := rfl
  rw [he, hd, List.getElem?_append_right (Nat.le.refl)]
  simp

end AdjacencyList

end graph
namespace graph

theorem count_finishSeq (t : List Event) (v : Nat) :
    (finishSeq t).count v = t.count (Event.finishVertex v) := by
  induction t with
  | nil => rfl
  | cons e t ih =>
    unfold finishSeq at ih ⊢
    rcases e with a | a | w | w | d | d | d | d | d <;>
      simp [List.count_cons, ih]

theorem count_initPrefix (n : Nat) (ev : Event)
    (h : ∀ a : CountingIterator, ev ≠ Event.initVertex a) :
    ((List.range n).map (fun i => Event.initVertex ⟨i⟩)).count ev = 0 := by
  refine List.count_eq_zero.mpr ?_
  intro hmem
  obtain ⟨i, _, hh⟩ := List.mem_map.mp hmem
  exact h ⟨i⟩ hh.symm

/-- C1: for every directed acyclic graph (certified by a topological rank),
topoSort appends to the caller-supplied output sequence exactly the
finishVertex arguments of the traversal, in finish order; each live vertex is
appended exactly once; and the reverse of the appended sequence is a valid
topological order: for every edge the source occurs before the target in the
reversed sequence. -/
theorem topoSort_finish_order_reverse_topological
    (G : Type) [Traits G] (g : G) (rank : Nat → Nat)
    (hwf : OutWF G g) (hrank : RankedDag G g rank) (out0 : List Nat) :
    ∃ T, dfs g traceVisitor [] = some T ∧
      topoSort g out0 = some (out0 ++ finishSeq T) ∧
      (∀ v, v < numVertices g → (finishSeq T).count v = 1) ∧
      (∀ u, u < numVertices g → ∀ e ∈ outEdges u g,
        occursBefore (finishSeq T).reverse e.src e.tar) := by
  obtain ⟨cs', t, heq, hlen, hblack, hdisc, hfin, hex, hfe, hcls, hini⟩ :=
    dfs_trace G g hwf
  refine ⟨_, heq, ?_, ?_, ?_⟩
  · unfold topoSort
    rw [dfs_factor G g TopoVisitor out0, heq]
    simp [foldEvents_topo]
  · intro v hv
    rw [count_finishSeq, List.count_append]
    have h0 : ((List.range (numVertices g)).map
        (fun i => Event.initVertex ⟨i⟩)).count (Event.finishVertex v) = 0 :=
      count_initPrefix _ _ (by intro a; simp)
    rw [h0, hfin v]
    unfold newBlackCnt
    rw [if_pos ⟨colAt_replicate_white _ _, hblack v hv⟩]
  · intro u hu e he
    have hfb := dfs_topo G g hwf rank hrank _ heq u hu e he
    exact occursBefore_reverse (finishedBefore_occursBefore hfb)

theorem topoSort_finish_order_reverse_topological_witness :
    OutWF (AdjacencyList DirectedCategory.Directed NoProp NoProp) g8 ∧
    RankedDag (AdjacencyList DirectedCategory.Directed NoProp NoProp) g8
      (fun v => v) ∧
    (∃ T, dfs g8 traceVisitor [] = some T ∧
      topoSort g8 [] = some ([] ++ finishSeq T) ∧
      (∀ v, v < numVertices g8 → (finishSeq T).count v = 1) ∧
      (∀ u, u < numVertices g8 → ∀ e ∈ outEdges u g8,
        occursBefore (finishSeq T).reverse e.src e.tar)) :=
  ⟨by decide, by decide,
    topoSort_finish_order_reverse_topological
      (AdjacencyList DirectedCategory.Directed NoProp NoProp) g8
      (fun v => v) (by decide) (by decide) []⟩

/-- C2: on every consistent adjacency-list graph (any category, any payloads,
self-loops and parallel edges included), dfs fires discoverVertex exactly once
and finishVertex exactly once per vertex, and examineEdge and finishEdge
exactly once per stored edge. -/
theorem dfs_visits_each_vertex_once_each_edge_once
    {cat : DirectedCategory} {VProp EProp : Type}
    (g : AdjacencyList cat VProp EProp) (hwf : AdjacencyList.WF g) :
    ∃ T, dfs g traceVisitor [] = some T ∧
      (∀ v, v < AdjacencyList.numVertices g →
        T.count (Event.discoverVertex v) = 1 ∧
        T.count (Event.finishVertex v) = 1) ∧
      (∀ i, i < AdjacencyList.numEdges g →
        T.count (Event.examineEdge (AdjacencyList.derefEdgeRef g i)) = 1 ∧
        T.count (Event.finishEdge (AdjacencyList.derefEdgeRef g i)) = 1) := by
  obtain ⟨cs', t, heq, hlen, hblack, hdisc, hfin, hex, hfe, hcls, hini⟩ :=
    dfs_trace (AdjacencyList cat VProp EProp) g hwf.outWF
  refine ⟨_, heq, ?_, ?_⟩
  · intro v hv
    constructor
    · rw [List.count_append,
        count_initPrefix _ _ (by intro a; simp), hdisc v]
      unfold newBlackCnt
      rw [if_pos ⟨colAt_replicate_white _ _, hblack v hv⟩]
    · rw [List.count_append,
        count_initPrefix _ _ (by intro a; simp), hfin v]
      unfold newBlackCnt
      rw [if_pos ⟨colAt_replicate_white _ _, hblack v hv⟩]
  · intro i hi
    have hmem : AdjacencyList.derefEdgeRef g i ∈ AdjacencyList.edges g := by
      unfold AdjacencyList.edges
      exact List.mem_map.mpr ⟨i, List.mem_range.mpr hi, rfl⟩
    have hsrc : (AdjacencyList.derefEdgeRef g i).src < AdjacencyList.numVertices g :=
      (hwf.1 _ hmem).1
    have hout : AdjacencyList.derefEdgeRef g i
        ∈ AdjacencyList.outEdges (AdjacencyList.derefEdgeRef g i).src g := by
      rw [hwf.2.2 _ hsrc]
      exact List.mem_filter.mpr ⟨hmem, by simp⟩
    have hcount : (AdjacencyList.outEdges
        (AdjacencyList.derefEdgeRef g i).src g).count
        (AdjacencyList.derefEdgeRef g i) = 1 :=
      AdjacencyList.count_outEdges_eq_one hwf hsrc hout
    have htraits : outEdges (AdjacencyList.derefEdgeRef g i).src g
        = AdjacencyList.outEdges (AdjacencyList.derefEdgeRef g i).src g := rfl
    constructor
    · rw [List.count_append,
        count_initPrefix _ _ (by intro a; simp), hex _]
      unfold newBlackCnt
      rw [if_pos ⟨colAt_replicate_white _ _, hblack _ hsrc⟩, htraits, hcount]
    · rw [List.count_append,
        count_initPrefix _ _ (by intro a; simp), hfe _]
      unfold newBlackCnt
      rw [if_pos ⟨colAt_replicate_white _ _, hblack _ hsrc⟩, htraits, hcount]

theorem dfs_visits_each_vertex_once_each_edge_once_witness :
    AdjacencyList.WF g8 ∧
    (∃ T, dfs g8 traceVisitor [] = some T ∧
      (∀ v, v < AdjacencyList.numVertices g8 →
        T.count (Event.discoverVertex v) = 1 ∧
        T.count (Event.finishVertex v) = 1) ∧
      (∀ i, i < AdjacencyList.numEdges g8 →
        T.count (Event.examineEdge (AdjacencyList.derefEdgeRef g8 i)) = 1 ∧
        T.count (Event.finishEdge (AdjacencyList.derefEdgeRef g8 i)) = 1)) :=
  ⟨by decide, dfs_visits_each_vertex_once_each_edge_once g8 (by decide)⟩

/-- C3: the argument dfs passes to initVertex and startVertex is the
vertices(g) loop iterator (a counting iterator positioned at the vertex), not
the dereferenced VertexDescriptor; the events still fire once per vertex, in
ascending order, before any traversal and immediately before each new tree
respectively.  Witnessed concretely on the two-vertex edgeless graph. -/
theorem dfs_initVertex_receives_iterator :
    dfs gTwo traceVisitor []
      = some [Event.initVertex ⟨0⟩, Event.initVertex ⟨1⟩,
          Event.startVertex ⟨0⟩, Event.discoverVertex 0, Event.finishVertex 0,
          Event.startVertex ⟨1⟩, Event.discoverVertex 1, Event.finishVertex 1] := by
  decide

end graph
namespace graph

/-- C4: edge classification in the edge loop of dfsVisit: every out-edge is
announced with examineEdge, then classified by the colour of its target
(White: treeEdge and a recursive visit; Grey: backEdge; Black:
forwardOrCrossEdge), then finishEdge; consequently over a whole dfs run each
edge descriptor receives exactly one classification event per examineEdge,
and one finishEdge per examineEdge. -/
theorem dfs_edge_classification (G : Type) [Traits G] (g : G) :
    (∀ (visit : Nat → List DFSColour → List Event →
          Option (List DFSColour × List Event))
        (e : EdgeDescriptor) (es : List EdgeDescriptor)
        (cs cs1 : List DFSColour) (s t1 : List Event),
      colAt cs e.tar = DFSColour.White →
      visit e.tar cs ((s ++ [Event.examineEdge e]) ++ [Event.treeEdge e])
          = some (cs1, t1) →
      dfsEdges visit traceVisitor (e :: es) cs s
        = dfsEdges visit traceVisitor es cs1 (t1 ++ [Event.finishEdge e])) ∧
    (∀ (visit : Nat → List DFSColour → List Event →
          Option (List DFSColour × List Event))
        (e : EdgeDescriptor) (es : List EdgeDescriptor)
        (cs : List DFSColour) (s : List Event),
      colAt cs e.tar = DFSColour.Grey →
      dfsEdges visit traceVisitor (e :: es) cs s
        = dfsEdges visit traceVisitor es cs
            (((s ++ [Event.examineEdge e]) ++ [Event.backEdge e])
              ++ [Event.finishEdge e])) ∧
    (∀ (visit : Nat → List DFSColour → List Event →
          Option (List DFSColour × List Event))
        (e : EdgeDescriptor) (es : List EdgeDescriptor)
        (cs : List DFSColour) (s : List Event),
      colAt cs e.tar = DFSColour.Black →
      dfsEdges visit traceVisitor (e :: es) cs s
        = dfsEdges visit traceVisitor es cs
            (((s ++ [Event.examineEdge e]) ++ [Event.forwardOrCrossEdge e])
              ++ [Event.finishEdge e])) ∧
    (OutWF G g →
      ∃ T, dfs g traceVisitor [] = some T ∧
        ∀ e : EdgeDescriptor,
          T.count (Event.treeEdge e) + T.count (Event.backEdge e)
              + T.count (Event.forwardOrCrossEdge e)
            = T.count (Event.examineEdge e) ∧
          T.count (Event.finishEdge e) = T.count (Event.examineEdge e)) := by
  refine ⟨?_, ?_, ?_, ?_⟩
  · intro visit e es cs cs1 s t1 h hveq
    simp only [dfsEdges, traceVisitor]
    rw [if_pos h, hveq]
  · intro visit e es cs s h
    simp only [dfsEdges, traceVisitor]
    rw [if_neg (by rw [h]; intro hc; cases hc), if_pos h]
  · intro visit e es cs s h
    simp only [dfsEdges, traceVisitor]
    rw [if_neg (by rw [h]; intro hc; cases hc),
      if_neg (by rw [h]; intro hc; cases hc)]
  · intro hwf
    obtain ⟨cs', t, heq, hlen, hblack, hdisc, hfin, hex, hfe, hcls, hini⟩ :=
      dfs_trace G g hwf
    refine ⟨_, heq, ?_⟩
    intro e
    have h0a : ((List.range (numVertices g)).map
        (fun i => Event.initVertex ⟨i⟩)).count (Event.treeEdge e) = 0 :=
      count_initPrefix _ _ (by intro a; simp)
    have h0b : ((List.range (numVertices g)).map
        (fun i => Event.initVertex ⟨i⟩)).count (Event.backEdge e) = 0 :=
      count_initPrefix _ _ (by intro a; simp)
    have h0c : ((List.range (numVertices g)).map
        (fun i => Event.initVertex ⟨i⟩)).count (Event.forwardOrCrossEdge e) = 0 :=
      count_initPrefix _ _ (by intro a; simp)
    have h0d : ((List.range (numVertices g)).map
        (fun i => Event.initVertex ⟨i⟩)).count (Event.examineEdge e) = 0 :=
      count_initPrefix _ _ (by intro a; simp)
    have h0e : ((List.range (numVertices g)).map
        (fun i => Event.initVertex ⟨i⟩)).count (Event.finishEdge e) = 0 :=
      count_initPrefix _ _ (by intro a; simp)
    constructor
    · simp only [List.count_append, h0a, h0b, h0c, h0d, Nat.zero_add]
      exact hcls e
    · simp only [List.count_append, h0d, h0e, Nat.zero_add]
      rw [hfe e, hex e]

theorem dfs_edge_classification_witness :
    colAt [DFSColour.Grey, DFSColour.Grey] 1 = DFSColour.Grey ∧
    OutWF (AdjacencyList DirectedCategory.Directed NoProp NoProp) gTwo ∧
    dfsEdges (dfsVisit gTwo traceVisitor 3) traceVisitor
        [⟨0, 1, 0⟩] [DFSColour.Grey, DFSColour.Grey] []
      = dfsEdges (dfsVisit gTwo traceVisitor 3) traceVisitor
          [] [DFSColour.Grey, DFSColour.Grey]
          ((([] ++ [Event.examineEdge ⟨0, 1, 0⟩])
              ++ [Event.backEdge ⟨0, 1, 0⟩]) ++ [Event.finishEdge ⟨0, 1, 0⟩]) ∧
    (∃ T, dfs gTwo traceVisitor [] = some T ∧
      ∀ e : EdgeDescriptor,
        T.count (Event.treeEdge e) + T.count (Event.backEdge e)
            + T.count (Event.forwardOrCrossEdge e)
          = T.count (Event.examineEdge e) ∧
        T.count (Event.finishEdge e) = T.count (Event.examineEdge e)) :=
  ⟨by decide, by decide,
    (dfs_edge_classification
        (AdjacencyList DirectedCategory.Directed NoProp NoProp) gTwo).2.1
      (dfsVisit gTwo traceVisitor 3) ⟨0, 1, 0⟩ []
      [DFSColour.Grey, DFSColour.Grey] [] (by decide),
    (dfs_edge_classification
        (AdjacencyList DirectedCategory.Directed NoProp NoProp) gTwo).2.2.2
      (by decide)⟩

end graph
namespace graph

/-- C5: each addVertex call (with or without payload) returns a descriptor equal
to the vertex count immediately before the call and raises the count by one; so
a sequence of n addVertex calls from the empty graph returns the descriptors
0, 1, ..., n-1 in order (the k-th call returns k-1) and leaves vertexCount = n. -/
theorem addVertex_returns_prior_count (cat : DirectedCategory)
    (VP EP : Type) [Inhabited VP] :
    (∀ g : AdjacencyList cat VP EP,
      (AdjacencyList.addVertex g).1 = AdjacencyList.numVertices g ∧
      AdjacencyList.numVertices (AdjacencyList.addVertex g).2
        = AdjacencyList.numVertices g + 1) ∧
    (∀ (vp : VP) (g : AdjacencyList cat VP EP),
      (AdjacencyList.addVertexProp vp g).1 = AdjacencyList.numVertices g ∧
      AdjacencyList.numVertices (AdjacencyList.addVertexProp vp g).2
        = AdjacencyList.numVertices g + 1) ∧
    (∀ n : Nat,
      (AdjacencyList.iterAddVertex n (emptyGraph cat VP EP)).2
        = List.range n ∧
      AdjacencyList.numVertices
        (AdjacencyList.iterAddVertex n (emptyGraph cat VP EP)).1 = n) := by
  refine ⟨fun g => ⟨AdjacencyList.addVertex_fst g,
      AdjacencyList.numVertices_addVertex g⟩,
    fun vp g => ⟨AdjacencyList.addVertexProp_fst vp g,
      AdjacencyList.numVertices_addVertexProp vp g⟩,
    fun n => ?_⟩
  obtain ⟨h1, h2⟩ := AdjacencyList.iterAddVertex_spec n (emptyGraph cat VP EP)
  have h0 : AdjacencyList.numVertices (emptyGraph cat VP EP) = 0 := rfl
  rw [h0] at h1 h2
  rw [h1, h2]
  constructor
  · simp
  · omega

/-- C6: adjacency consistency is an invariant: it holds of the empty graph, is
preserved by addVertex and addVertexProp (in both the out-edge form WF and, for
Bidirectional graphs, the in-edge form WFin), and is preserved by every addEdge
variant when the endpoints are live; moreover the edge added by addEdge(v, u)
appears exactly once in outEdges v (and, bidirectionally, exactly once in
inEdges u), appears in no other vertex's out- (resp. in-) adjacency, and every
member of outEdges w has source w, every member of inEdges w target w. -/
theorem adjacency_consistency_preserved (cat : DirectedCategory)
    (VP EP : Type) [Inhabited VP] [Inhabited EP] :
    AdjacencyList.WF (emptyGraph cat VP EP) ∧
    AdjacencyList.WFin (emptyGraph DirectedCategory.Bidirectional VP EP) ∧
    (∀ g : AdjacencyList cat VP EP, AdjacencyList.WF g →
      AdjacencyList.WF (AdjacencyList.addVertex g).2 ∧
      ∀ vp : VP, AdjacencyList.WF (AdjacencyList.addVertexProp vp g).2) ∧
    (∀ g : AdjacencyList DirectedCategory.Bidirectional VP EP,
      AdjacencyList.WF g → AdjacencyList.WFin g →
      AdjacencyList.WFin (AdjacencyList.addVertex g).2 ∧
      ∀ vp : VP, AdjacencyList.WFin (AdjacencyList.addVertexProp vp g).2) ∧
    (∀ (g : AdjacencyList DirectedCategory.Directed VP EP) (v u : Nat)
        (ep : EP),
      AdjacencyList.WF g →
      v < AdjacencyList.numVertices g → u < AdjacencyList.numVertices g →
      AdjacencyList.WF (AdjacencyList.addEdge v u g).2 ∧
      AdjacencyList.WF (AdjacencyList.addEdgeProp v u ep g).2 ∧
      AdjacencyList.outEdges v (AdjacencyList.addEdge v u g).2
        = AdjacencyList.outEdges v g ++ [(AdjacencyList.addEdge v u g).1] ∧
      (∀ w, w ≠ v →
        AdjacencyList.outEdges w (AdjacencyList.addEdge v u g).2
          = AdjacencyList.outEdges w g) ∧
      (AdjacencyList.outEdges v (AdjacencyList.addEdge v u g).2).count
          (AdjacencyList.addEdge v u g).1 = 1 ∧
      (∀ w, w ≠ v →
        (AdjacencyList.addEdge v u g).1
          ∉ AdjacencyList.outEdges w (AdjacencyList.addEdge v u g).2)) ∧
    (∀ (g : AdjacencyList DirectedCategory.Bidirectional VP EP) (v u : Nat)
        (ep : EP),
      AdjacencyList.WF g → AdjacencyList.WFin g →
      v < AdjacencyList.numVertices g → u < AdjacencyList.numVertices g →
      AdjacencyList.WF (AdjacencyList.addEdgeB v u g).2 ∧
      AdjacencyList.WFin (AdjacencyList.addEdgeB v u g).2 ∧
      AdjacencyList.WF (AdjacencyList.addEdgeBProp v u ep g).2 ∧
      AdjacencyList.WFin (AdjacencyList.addEdgeBProp v u ep g).2 ∧
      AdjacencyList.outEdges v (AdjacencyList.addEdgeB v u g).2
        = AdjacencyList.outEdges v g ++ [(AdjacencyList.addEdgeB v u g).1] ∧
      AdjacencyList.inEdges u (AdjacencyList.addEdgeB v u g).2
        = AdjacencyList.inEdges u g ++ [(AdjacencyList.addEdgeB v u g).1] ∧
      (∀ w, w ≠ v →
        AdjacencyList.outEdges w (AdjacencyList.addEdgeB v u g).2
          = AdjacencyList.outEdges w g) ∧
      (∀ w, w ≠ u →
        AdjacencyList.inEdges w (AdjacencyList.addEdgeB v u g).2
          = AdjacencyList.inEdges w g) ∧
      (AdjacencyList.outEdges v (AdjacencyList.addEdgeB v u g).2).count
          (AdjacencyList.addEdgeB v u g).1 = 1 ∧
      (AdjacencyList.inEdges u (AdjacencyList.addEdgeB v u g).2).count
          (AdjacencyList.addEdgeB v u g).1 = 1 ∧
      (∀ w, w ≠ v →
        (AdjacencyList.addEdgeB v u g).1
          ∉ AdjacencyList.outEdges w (AdjacencyList.addEdgeB v u g).2) ∧
      (∀ w, w ≠ u →
        (AdjacencyList.addEdgeB v u g).1
          ∉ AdjacencyList.inEdges w (AdjacencyList.addEdgeB v u g).2)) ∧
    (∀ g : AdjacencyList cat VP EP, AdjacencyList.WF g →
      ∀ w, ∀ e ∈ AdjacencyList.outEdges w g, AdjacencyList.source e g = w) ∧
    (∀ g : AdjacencyList DirectedCategory.Bidirectional VP EP,
      AdjacencyList.WFin g →
      ∀ w, ∀ e ∈ AdjacencyList.inEdges w g, AdjacencyList.target e g = w) := by
  refine ⟨AdjacencyList.WF_empty, AdjacencyList.WFin_empty, ?_, ?_, ?_, ?_,
    ?_, ?_⟩
  · exact fun g hwf => ⟨AdjacencyList.WF_addVertex hwf,
      fun vp => AdjacencyList.WF_addVertexProp hwf⟩
  · exact fun g hwf hwfin => ⟨AdjacencyList.WFin_addVertex hwf hwfin,
      fun vp => AdjacencyList.WFin_addVertexProp hwf hwfin⟩
  · intro g v u ep hwf hv hu
    rw [AdjacencyList.addEdge_eq, AdjacencyList.addEdgeProp_eq]
    have hwf2 : AdjacencyList.WF
        (AdjacencyList.addEdgeAux v u (default : EP) g) :=
      AdjacencyList.WF_addEdgeAux default hwf hv hu
    have hself := AdjacencyList.outEdges_addEdgeAux_self u (default : EP)
      hwf hv
    have hv2 : v < AdjacencyList.numVertices
        (AdjacencyList.addEdgeAux v u (default : EP) g) := by
      rw [AdjacencyList.numVertices_addEdgeAux]; exact hv
    refine ⟨hwf2, AdjacencyList.WF_addEdgeAux ep hwf hv hu, hself,
      fun w hw => AdjacencyList.outEdges_addEdgeAux_ne u default hwf hw,
      ?_, ?_⟩
    · exact AdjacencyList.count_outEdges_eq_one hwf2 hv2
        (by rw [hself]; exact List.mem_append_right _ (List.mem_singleton.mpr rfl))
    · intro w hw
      refine AdjacencyList.not_mem_outEdges hwf2 ?_
      show v ≠ w
      exact fun hh => hw hh.symm
  · intro g v u ep hwf hwfin hv hu
    rw [AdjacencyList.addEdgeB_eq, AdjacencyList.addEdgeBProp_eq]
    have hwf2 : AdjacencyList.WF
        (AdjacencyList.addEdgeAuxB v u (default : EP) g) :=
      AdjacencyList.WF_addEdgeAuxB default hwf hv hu
    have hwfin2 : AdjacencyList.WFin
        (AdjacencyList.addEdgeAuxB v u (default : EP) g) :=
      AdjacencyList.WFin_addEdgeAuxB default hwfin hu
    have hselfo : AdjacencyList.outEdges v
        (AdjacencyList.addEdgeAuxB v u (default : EP) g)
        = AdjacencyList.outEdges v g ++ [⟨v, u, AdjacencyList.numEdges g⟩] := by
      rw [AdjacencyList.outEdges_addEdgeAuxB]
      exact AdjacencyList.outEdges_addEdgeAux_self u default hwf hv
    have hselfi := AdjacencyList.inEdges_addEdgeAuxB_self v (default : EP)
      hwfin hu
    have hv2 : v < AdjacencyList.numVertices
        (AdjacencyList.addEdgeAuxB v u (default : EP) g) := by
      rw [AdjacencyList.numVertices_addEdgeAuxB]; exact hv
    have hu2 : u < AdjacencyList.numVertices
        (AdjacencyList.addEdgeAuxB v u (default : EP) g) := by
      rw [AdjacencyList.numVertices_addEdgeAuxB]; exact hu
    refine ⟨hwf2, hwfin2, AdjacencyList.WF_addEdgeAuxB ep hwf hv hu,
      AdjacencyList.WFin_addEdgeAuxB ep hwfin hu, hselfo, hselfi,
      ?_, fun w hw => AdjacencyList.inEdges_addEdgeAuxB_ne v default hwfin hw,
      ?_, ?_, ?_, ?_⟩
    · intro w hw
      rw [AdjacencyList.outEdges_addEdgeAuxB]
      exact AdjacencyList.outEdges_addEdgeAux_ne u default hwf hw
    · exact AdjacencyList.count_outEdges_eq_one hwf2 hv2
        (by rw [hselfo]; exact List.mem_append_right _ (List.mem_singleton.mpr rfl))
    · exact AdjacencyList.count_inEdges_eq_one hwfin2 hu2
        (by rw [hselfi]; exact List.mem_append_right _ (List.mem_singleton.mpr rfl))
    · intro w hw
      refine AdjacencyList.not_mem_outEdges hwf2 ?_
      show v ≠ w
      exact fun hh => hw hh.symm
    · intro w hw
      refine AdjacencyList.not_mem_inEdges hwfin2 ?_
      show u ≠ w
      exact fun hh => hw hh.symm
  · exact fun g hwf w => AdjacencyList.outEdges_src hwf w
  · exact fun g hwfin w => AdjacencyList.inEdges_tar hwfin w

theorem adjacency_consistency_preserved_witness :
    AdjacencyList.WF gBi ∧ AdjacencyList.WFin gBi ∧
    0 < AdjacencyList.numVertices gBi ∧ 1 < AdjacencyList.numVertices gBi ∧
    (AdjacencyList.WF (AdjacencyList.addEdgeB 0 1 gBi).2 ∧
      AdjacencyList.WFin (AdjacencyList.addEdgeB 0 1 gBi).2 ∧
      AdjacencyList.WF (AdjacencyList.addEdgeBProp 0 1 NoProp.mk gBi).2 ∧
      AdjacencyList.WFin (AdjacencyList.addEdgeBProp 0 1 NoProp.mk gBi).2 ∧
      AdjacencyList.outEdges 0 (AdjacencyList.addEdgeB 0 1 gBi).2
        = AdjacencyList.outEdges 0 gBi ++ [(AdjacencyList.addEdgeB 0 1 gBi).1] ∧
      AdjacencyList.inEdges 1 (AdjacencyList.addEdgeB 0 1 gBi).2
        = AdjacencyList.inEdges 1 gBi ++ [(AdjacencyList.addEdgeB 0 1 gBi).1] ∧
      (∀ w, w ≠ 0 →
        AdjacencyList.outEdges w (AdjacencyList.addEdgeB 0 1 gBi).2
          = AdjacencyList.outEdges w gBi) ∧
      (∀ w, w ≠ 1 →
        AdjacencyList.inEdges w (AdjacencyList.addEdgeB 0 1 gBi).2
          = AdjacencyList.inEdges w gBi) ∧
      (AdjacencyList.outEdges 0 (AdjacencyList.addEdgeB 0 1 gBi).2).count
          (AdjacencyList.addEdgeB 0 1 gBi).1 = 1 ∧
      (AdjacencyList.inEdges 1 (AdjacencyList.addEdgeB 0 1 gBi).2).count
          (AdjacencyList.addEdgeB 0 1 gBi).1 = 1 ∧
      (∀ w, w ≠ 0 →
        (AdjacencyList.addEdgeB 0 1 gBi).1
          ∉ AdjacencyList.outEdges w (AdjacencyList.addEdgeB 0 1 gBi).2) ∧
      (∀ w, w ≠ 1 →
        (AdjacencyList.addEdgeB 0 1 gBi).1
          ∉ AdjacencyList.inEdges w (AdjacencyList.addEdgeB 0 1 gBi).2)) :=
  ⟨by decide, by decide, by decide, by decide,
    (adjacency_consistency_preserved DirectedCategory.Bidirectional NoProp
        NoProp).2.2.2.2.2.1 gBi 0 1 NoProp.mk (by decide) (by decide)
      (by decide) (by decide)⟩

/-- C7: property round-trip: adding a vertex with payload vp and reading the
property of the returned descriptor yields vp; adding an edge with payload ep
(directed or bidirectional variant) and reading the property of the returned
descriptor yields ep. -/
theorem property_roundtrip (VP EP : Type) :
    (∀ (cat : DirectedCategory) (vp : VP)
        (g : AdjacencyList cat VP EP),
      AdjacencyList.vertexProp (AdjacencyList.addVertexProp vp g).2
        (AdjacencyList.addVertexProp vp g).1 = some vp) ∧
    (∀ (v u : Nat) (ep : EP)
        (g : AdjacencyList DirectedCategory.Directed VP EP),
      AdjacencyList.edgeProp (AdjacencyList.addEdgeProp v u ep g).2
        (AdjacencyList.addEdgeProp v u ep g).1 = some ep) ∧
    (∀ (v u : Nat) (ep : EP)
        (g : AdjacencyList DirectedCategory.Bidirectional VP EP),
      AdjacencyList.edgeProp (AdjacencyList.addEdgeBProp v u ep g).2
        (AdjacencyList.addEdgeBProp v u ep g).1 = some ep) :=
  ⟨fun _cat vp g => AdjacencyList.vertexProp_addVertexProp vp g,
    fun v u ep g => AdjacencyList.edgeProp_addEdgeProp v u ep g,
    fun v u ep g => AdjacencyList.edgeProp_addEdgeBProp v u ep g⟩

end graph
namespace graph

/-- C8: the driver scenario: on the 8-vertex graph with edges 0-3, 3-5, 5-7,
2-4, 4-6, 6-7 and vertex 1 isolated, topoSort writes the finish order
7,5,3,0,1,6,4,2 to the output sequence; its reverse is exactly 2,4,6,1,0,3,5,7,
and that reversed order puts the source before the target of every edge. -/
theorem topoSort_scenario_graph1 :
    topoSort g8 [] = some [7, 5, 3, 0, 1, 6, 4, 2] ∧
    [7, 5, 3, 0, 1, 6, 4, 2].reverse = [2, 4, 6, 1, 0, 3, 5, 7] ∧
    occursBefore [2, 4, 6, 1, 0, 3, 5, 7] 0 3 ∧
    occursBefore [2, 4, 6, 1, 0, 3, 5, 7] 3 5 ∧
    occursBefore [2, 4, 6, 1, 0, 3, 5, 7] 5 7 ∧
    occursBefore [2, 4, 6, 1, 0, 3, 5, 7] 2 4 ∧
    occursBefore [2, 4, 6, 1, 0, 3, 5, 7] 4 6 ∧
    occursBefore [2, 4, 6, 1, 0, 3, 5, 7] 6 7 :=
  ⟨by decide, by decide,
    ⟨[2, 4, 6, 1, 0], [5, 7], by decide, by decide⟩,
    ⟨[2, 4, 6, 1, 0, 3], [7], by decide, by decide⟩,
    ⟨[2, 4, 6, 1, 0, 3, 5], [], by decide, by decide⟩,
    ⟨[2], [6, 1, 0, 3, 5, 7], by decide, by decide⟩,
    ⟨[2, 4], [1, 0, 3, 5, 7], by decide, by decide⟩,
    ⟨[2, 4, 6, 1, 0, 3, 5], [], by decide, by decide⟩⟩

/-- C9: inEdges and inDegree are declared only at the Bidirectional category
index (the Lean embedding gives them no type at a Directed graph, mirroring the
requires-clause compile-time rejection), and on Bidirectional graphs they
satisfy the outEdges/outDegree contract with source and target swapped:
inEdges v lists exactly the stored edges with target v, inDegree v is its
length, every member has target v, and addEdgeB(v, u) appends the new
descriptor to inEdges u and to no other vertex, raising inDegree u by one. -/
theorem inEdges_bidirectional_contract (VP EP : Type) [Inhabited EP] :
    (∀ g : AdjacencyList DirectedCategory.Bidirectional VP EP,
      AdjacencyList.WF g → AdjacencyList.WFin g →
      ∀ v, v < AdjacencyList.numVertices g →
      AdjacencyList.inEdges v g
          = (AdjacencyList.edges g).filter (fun e => e.tar = v) ∧
      AdjacencyList.inDegree v g
          = ((AdjacencyList.edges g).filter (fun e => e.tar = v)).length ∧
      AdjacencyList.outEdges v g
          = (AdjacencyList.edges g).filter (fun e => e.src = v) ∧
      AdjacencyList.outDegree v g
          = ((AdjacencyList.edges g).filter (fun e => e.src = v)).length ∧
      (∀ e ∈ AdjacencyList.inEdges v g, AdjacencyList.target e g = v) ∧
      (∀ e ∈ AdjacencyList.outEdges v g, AdjacencyList.source e g = v)) ∧
    (∀ (g : AdjacencyList DirectedCategory.Bidirectional VP EP) (v u : Nat),
      AdjacencyList.WFin g → u < AdjacencyList.numVertices g →
      AdjacencyList.inEdges u (AdjacencyList.addEdgeB v u g).2
          = AdjacencyList.inEdges u g ++ [(AdjacencyList.addEdgeB v u g).1] ∧
      (∀ w, w ≠ u →
        AdjacencyList.inEdges w (AdjacencyList.addEdgeB v u g).2
          = AdjacencyList.inEdges w g) ∧
      AdjacencyList.inDegree u (AdjacencyList.addEdgeB v u g).2
          = AdjacencyList.inDegree u g + 1) := by
  constructor
  · intro g hwf hwfin v hv
    refine ⟨hwfin.2 v hv, ?_, hwf.2.2 v hv, ?_,
      AdjacencyList.inEdges_tar hwfin v, AdjacencyList.outEdges_src hwf v⟩
    · rw [AdjacencyList.inDegree_eq_length, hwfin.2 v hv]
    · rw [AdjacencyList.outDegree_eq_length, hwf.2.2 v hv]
  · intro g v u hwfin hu
    rw [AdjacencyList.addEdgeB_eq]
    have hselfi := AdjacencyList.inEdges_addEdgeAuxB_self v (default : EP)
      hwfin hu
    refine ⟨hselfi,
      fun w hw => AdjacencyList.inEdges_addEdgeAuxB_ne v default hwfin hw, ?_⟩
    rw [AdjacencyList.inDegree_eq_length, hselfi, List.length_append,
      AdjacencyList.inDegree_eq_length]
    rfl

theorem inEdges_bidirectional_contract_witness :
    AdjacencyList.WF gBi ∧ AdjacencyList.WFin gBi ∧
    0 < AdjacencyList.numVertices gBi ∧
    (AdjacencyList.inEdges 0 gBi
        = (AdjacencyList.edges gBi).filter (fun e => e.tar = 0) ∧
      AdjacencyList.inDegree 0 gBi
        = ((AdjacencyList.edges gBi).filter (fun e => e.tar = 0)).length ∧
      AdjacencyList.outEdges 0 gBi
        = (AdjacencyList.edges gBi).filter (fun e => e.src = 0) ∧
      AdjacencyList.outDegree 0 gBi
        = ((AdjacencyList.edges gBi).filter (fun e => e.src = 0)).length ∧
      (∀ e ∈ AdjacencyList.inEdges 0 gBi, AdjacencyList.target e gBi = 0) ∧
      (∀ e ∈ AdjacencyList.outEdges 0 gBi, AdjacencyList.source e gBi = 0)) ∧
    (AdjacencyList.inEdges 1 (AdjacencyList.addEdgeB 0 1 gBi).2
        = AdjacencyList.inEdges 1 gBi ++ [(AdjacencyList.addEdgeB 0 1 gBi).1] ∧
      (∀ w, w ≠ 1 →
        AdjacencyList.inEdges w (AdjacencyList.addEdgeB 0 1 gBi).2
          = AdjacencyList.inEdges w gBi) ∧
      AdjacencyList.inDegree 1 (AdjacencyList.addEdgeB 0 1 gBi).2
          = AdjacencyList.inDegree 1 gBi + 1) :=
  ⟨by decide, by decide, by decide,
    (inEdges_bidirectional_contract NoProp NoProp).1 gBi (by decide)
      (by decide) 0 (by decide),
    (inEdges_bidirectional_contract NoProp NoProp).2 gBi 0 1 (by decide)
      (by decide)⟩

/-- C10: dfs and topoSort leave the graph untouched: viewed as state
transformers, both return the graph component unchanged, so vertex count, edge
count, every adjacency sequence and every stored payload still read the same
after the call; only the visitor state / output sequence component changes. -/
theorem dfs_topoSort_frame (cat : DirectedCategory) (VP EP : Type)
    {σ : Type} (V : Visitor σ) (g : AdjacencyList cat VP EP) (s : σ)
    (out : List Nat) :
    (dfsCall (AdjacencyList cat VP EP) V (g, s)).1 = g ∧
    (topoSortCall (AdjacencyList cat VP EP) (g, out)).1 = g ∧
    (dfsCall (AdjacencyList cat VP EP) V (g, s)).2 = dfs g V s ∧
    (topoSortCall (AdjacencyList cat VP EP) (g, out)).2 = topoSort g out ∧
    AdjacencyList.numVertices (dfsCall (AdjacencyList cat VP EP) V (g, s)).1
      = AdjacencyList.numVertices g ∧
    AdjacencyList.numEdges (dfsCall (AdjacencyList cat VP EP) V (g, s)).1
      = AdjacencyList.numEdges g ∧
    (∀ v, AdjacencyList.outEdges v
        (dfsCall (AdjacencyList cat VP EP) V (g, s)).1
      = AdjacencyList.outEdges v g) ∧
    (∀ v, AdjacencyList.vertexProp
        (dfsCall (AdjacencyList cat VP EP) V (g, s)).1 v
      = AdjacencyList.vertexProp g v) ∧
    (∀ e, AdjacencyList.edgeProp
        (dfsCall (AdjacencyList cat VP EP) V (g, s)).1 e
      = AdjacencyList.edgeProp g e) ∧
    (∀ v, AdjacencyList.outEdges v
        (topoSortCall (AdjacencyList cat VP EP) (g, out)).1
      = AdjacencyList.outEdges v g) ∧
    (∀ v, AdjacencyList.vertexProp
        (topoSortCall (AdjacencyList cat VP EP) (g, out)).1 v
      = AdjacencyList.vertexProp g v) ∧
    (∀ e, AdjacencyList.edgeProp
        (topoSortCall (AdjacencyList cat VP EP) (g, out)).1 e
      = AdjacencyList.edgeProp g e) :=
  ⟨rfl, rfl, rfl, rfl, rfl, rfl, fun _ => rfl, fun _ => rfl, fun _ => rfl,
    fun _ => rfl, fun _ => rfl, fun _ => rfl⟩

end graph
